import Mathlib

/-!
Verification of the layered DAG layout engine (`buildLayout` in the
workflow-graph component of the process-optimization dashboard).

The embedding models the TypeScript function faithfully:
* a JS `Map` is an insertion-ordered association list (`mapGet` / `mapSet`,
  where `mapSet` on an existing key updates in place and otherwise appends);
* step identifiers are natural numbers; in-degrees are integers (the code
  subtracts), levels are naturals, coordinates are integers (every value the
  code computes is an exact integer: `totalH = n*160 - 60` is even, so the
  JS float division `totalH / 2` is exact);
* the `while (head < queue.length)` loop is modeled with explicit fuel and
  we prove the fuel always suffices (the loop reaches its exit condition).
-/

namespace POE

/-- A process step; the layout engine inspects only the identifier
(the remaining scalar attributes are opaque payload, never read). -/
structure StepNode where
  id : Nat
  deriving Repr, DecidableEq

/-- A directed precedence edge between step identifiers. -/
structure DependencyEdge where
  source_step_id : Nat
  target_step_id : Nat
  deriving Repr, DecidableEq

/-- A 2-D position, as produced by the layout. -/
structure Pos where
  x : Int
  y : Int
  deriving Repr, DecidableEq

/-- Lookup in an insertion-ordered association list (JS `Map.get`). -/
def mapGet {α : Type} (m : List (Nat × α)) (k : Nat) : Option α :=
  match m with
  | [] => none
  | (k', v) :: rest => if k' = k then some v else mapGet rest k

/-- Update in an insertion-ordered association list (JS `Map.set`):
an existing key is updated in place, a new key is appended at the end. -/
def mapSet {α : Type} (m : List (Nat × α)) (k : Nat) (v : α) : List (Nat × α) :=
  match m with
  | [] => [(k, v)]
  | (k', v') :: rest => if k' = k then (k, v) :: rest else (k', v') :: mapSet rest k v

/-- The key list of an association list, in insertion order (JS `Map.keys`). -/
def keysOf {α : Type} (m : List (Nat × α)) : List Nat := m.map (·.1)

/-! Layout constants, exactly the code's values. -/

def NODE_W : Int := 200
def NODE_H : Int := 100
def GAP_X : Int := 60
def GAP_Y : Int := 60

/-- The identifiers of the input node list. -/
def stepIds (steps : List StepNode) : List Nat := steps.map (·.id)

/-- `for (const s of steps) adjOut.set(s.id, [])`. -/
def initAdj (steps : List StepNode) : List (Nat × List Nat) :=
  steps.foldl (fun m s => mapSet m s.id []) []

/-- `for (const s of steps) inDeg.set(s.id, 0)`. -/
def initInDeg (steps : List StepNode) : List (Nat × Int) :=
  steps.foldl (fun m s => mapSet m s.id 0) []

/-- One iteration of the edge loop:
`adjOut.get(d.source_step_id)?.push(d.target_step_id);`
`inDeg.set(d.target_step_id, (inDeg.get(d.target_step_id) ?? 0) + 1);`
Note that the adjacency push is conditional on the source key existing,
while the in-degree update is unconditional. -/
def addEdge (st : List (Nat × List Nat) × List (Nat × Int)) (d : DependencyEdge) :
    List (Nat × List Nat) × List (Nat × Int) :=
  let adj' := match mapGet st.1 d.source_step_id with
    | some l => mapSet st.1 d.source_step_id (l ++ [d.target_step_id])
    | none => st.1
  let deg' := mapSet st.2 d.target_step_id ((mapGet st.2 d.target_step_id).getD 0 + 1)
  (adj', deg')

/-- The adjacency-list and in-degree maps after both build loops. -/
def buildGraph (steps : List StepNode) (deps : List DependencyEdge) :
    List (Nat × List Nat) × List (Nat × Int) :=
  deps.foldl addEdge (initAdj steps, initInDeg steps)

def adjOutOf (steps : List StepNode) (deps : List DependencyEdge) : List (Nat × List Nat) :=
  (buildGraph steps deps).1

def inDegOf (steps : List StepNode) (deps : List DependencyEdge) : List (Nat × Int) :=
  (buildGraph steps deps).2

/-- The mutable state of the Kahn-style main loop. -/
structure LState where
  queue : List Nat
  head : Nat
  level : List (Nat × Nat)
  groups : List (Nat × List Nat)
  inDeg : List (Nat × Int)
  deriving Repr, DecidableEq

/-- The body of `for (const next of (adjOut.get(id) ?? []))`:
`inDeg.set(next, (inDeg.get(next) ?? 1) - 1);`
`level.set(next, Math.max(level.get(next) ?? 0, lvl + 1));`
`if (inDeg.get(next) === 0) queue.push(next);` -/
def relaxEdge (lvl : Nat) (st : LState) (t : Nat) : LState :=
  let d := (mapGet st.inDeg t).getD 1 - 1
  let inDeg' := mapSet st.inDeg t d
  let level' := mapSet st.level t (Nat.max ((mapGet st.level t).getD 0) (lvl + 1))
  let queue' := if d = 0 then st.queue ++ [t] else st.queue
  ⟨queue', st.head, level', st.groups, inDeg'⟩

/-- One iteration of the main loop: dequeue `queue[head]`, record it in its
level group, relax all its outgoing edges, advance `head`. -/
def processNode (adj : List (Nat × List Nat)) (st : LState) : LState :=
  match st.queue.get? st.head with
  | none => st
  | some id =>
    let lvl := (mapGet st.level id).getD 0
    let grp := (mapGet st.groups lvl).getD []
    let st1 : LState := ⟨st.queue, st.head, st.level, mapSet st.groups lvl (grp ++ [id]), st.inDeg⟩
    let st2 := ((mapGet adj id).getD []).foldl (relaxEdge lvl) st1
    ⟨st2.queue, st2.head + 1, st2.level, st2.groups, st2.inDeg⟩

/-- `while (head < queue.length) { ... }`, with explicit fuel.  We prove
below that the fuel passed by `kahnState` always reaches the loop's real
exit condition `head = queue.length`. -/
def runLoop (adj : List (Nat × List Nat)) : Nat → LState → LState
  | 0, st => st
  | fuel + 1, st =>
    if st.head < st.queue.length then runLoop adj fuel (processNode adj st) else st

/-- The state at exit of the main loop: seed the queue with all zero
in-degree entries (in map insertion order), then run the loop. -/
def kahnState (steps : List StepNode) (deps : List DependencyEdge) : LState :=
  let adj := adjOutOf steps deps
  let deg := inDegOf steps deps
  let queue0 := (deg.filter (fun p => p.2 = 0)).map (·.1)
  runLoop adj deg.length ⟨queue0, 0, [], [], deg⟩

/-- The level finally held for an identifier (`level.get(id) ?? 0`). -/
def levelOfFn (steps : List StepNode) (deps : List DependencyEdge) (x : Nat) : Nat :=
  (mapGet (kahnState steps deps).level x).getD 0

/-- `Math.max(...Array.from(levelGroups.keys()), 0)`. -/
def maxLevelOf (g : List (Nat × List Nat)) : Nat :=
  (g.map (·.1)).foldr Nat.max 0

/-- The positioning double loop:
for each `lvl` in `0..maxLevel`, for the `i`-th member of that level's group,
`positions.set(id, { x: lvl*(W+Gx), y: i*(H+Gy) - totalH/2 })` with
`totalH = group.length*(H+Gy) - Gy`. -/
def placeGroups (g : List (Nat × List Nat)) : List (Nat × Pos) :=
  (List.range (maxLevelOf g + 1)).foldl
    (fun pos lvl =>
      let group := (mapGet g lvl).getD []
      let totalH : Int := (group.length : Int) * (NODE_H + GAP_Y) - GAP_Y
      group.enum.foldl
        (fun pos p =>
          mapSet pos p.2
            ⟨(lvl : Int) * (NODE_W + GAP_X),
             (p.1 : Int) * (NODE_H + GAP_Y) - totalH / 2⟩)
        pos)
    []

/-- The fallback loop: any step id still without a position is placed at
`x = (maxLevel + 1 + fallbackIdx)*(W+Gx), y = 0`, in input order. -/
def addFallback (steps : List StepNode) (maxLevel : Nat) (pos : List (Nat × Pos)) :
    List (Nat × Pos) :=
  (steps.foldl
    (fun (acc : List (Nat × Pos) × Nat) s =>
      if (mapGet acc.1 s.id).isSome then acc
      else
        (mapSet acc.1 s.id ⟨((maxLevel + 1 + acc.2 : Nat) : Int) * (NODE_W + GAP_X), 0⟩,
         acc.2 + 1))
    (pos, 0)).1

/-- The whole layout function `buildLayout(steps, deps)`. -/
def buildLayout (steps : List StepNode) (deps : List DependencyEdge) : List (Nat × Pos) :=
  let st := kahnState steps deps
  addFallback steps (maxLevelOf st.groups) (placeGroups st.groups)

/-! ### Association-list (JS `Map`) lemmas -/

theorem mapGet_mapSet_self {α : Type} (m : List (Nat × α)) (k : Nat) (v : α) :
    mapGet (mapSet m k v) k = some v := by
  induction m with
  | nil => simp [mapGet, mapSet]
  | cons p rest ih =>
    by_cases h : p.1 = k
    · simp [mapGet, mapSet, h]
    · simp [mapGet, mapSet, h, ih]

theorem mapGet_mapSet_ne {α : Type} (m : List (Nat × α)) (k k' : Nat) (v : α)
    (h : k' ≠ k) : mapGet (mapSet m k v) k' = mapGet m k' := by
  have hk : ¬ k = k' := Ne.symm h
  induction m with
  | nil => simp [mapGet, mapSet, hk]
  | cons p rest ih =>
    by_cases hp : p.1 = k
    · subst hp
      simp [mapGet, mapSet, hk]
    · simp [mapGet, mapSet, hp, ih]

theorem mapGet_eq_none_iff {α : Type} (m : List (Nat × α)) (k : Nat) :
    mapGet m k = none ↔ k ∉ keysOf m := by
  induction m with
  | nil => simp [mapGet, keysOf]
  | cons p rest ih =>
    by_cases h : p.1 = k
    · simp [mapGet, keysOf, h]
    · simp [mapGet, keysOf, h, ih, Ne.symm h]

theorem mem_of_mapGet_eq_some {α : Type} {m : List (Nat × α)} {k : Nat} {v : α}
    (h : mapGet m k = some v) : (k, v) ∈ m := by
  induction m with
  | nil => simp [mapGet] at h
  | cons p rest ih =>
    by_cases hp : p.1 = k
    · simp [mapGet, hp] at h
      exact List.mem_cons.mpr (Or.inl (by rw [← hp, ← h]))
    · simp [mapGet, hp] at h
      exact List.mem_cons_of_mem _ (ih h)

theorem mapGet_isSome_iff {α : Type} (m : List (Nat × α)) (k : Nat) :
    (mapGet m k).isSome ↔ k ∈ keysOf m := by
  cases hm : mapGet m k with
  | none =>
    have := (mapGet_eq_none_iff m k).mp hm
    simp [this]
  | some v =>
    have hmem : (k, v) ∈ m := mem_of_mapGet_eq_some hm
    simp only [Option.isSome_some, true_iff, keysOf, List.mem_map]
    exact ⟨(k, v), hmem, rfl⟩

theorem keysOf_mapSet_mem {α : Type} (m : List (Nat × α)) (k : Nat) (v : α)
    (h : k ∈ keysOf m) : keysOf (mapSet m k v) = keysOf m := by
  induction m with
  | nil => simp [keysOf] at h
  | cons p rest ih =>
    by_cases hp : p.1 = k
    · simp [mapSet, keysOf, hp]
    · have hr : k ∈ keysOf rest := by
        rcases List.mem_cons.mp h with h1 | h1
        · exact absurd h1.symm hp
        · exact h1
      have h2 := ih hr
      simp only [keysOf] at h2
      simp [mapSet, keysOf, hp, h2]

theorem keysOf_mapSet_new {α : Type} (m : List (Nat × α)) (k : Nat) (v : α)
    (h : k ∉ keysOf m) : keysOf (mapSet m k v) = keysOf m ++ [k] := by
  induction m with
  | nil => simp [mapSet, keysOf]
  | cons p rest ih =>
    have hp : ¬ p.1 = k := by
      intro he
      exact h (show k ∈ p.1 :: keysOf rest from he ▸ List.mem_cons_self _ _)
    have hr : k ∉ keysOf rest := by
      intro he
      exact h (show k ∈ p.1 :: keysOf rest from List.mem_cons_of_mem _ he)
    have h2 := ih hr
    simp only [keysOf] at h2
    simp [mapSet, keysOf, hp, h2]

theorem nodup_keysOf_mapSet {α : Type} (m : List (Nat × α)) (k : Nat) (v : α)
    (h : (keysOf m).Nodup) : (keysOf (mapSet m k v)).Nodup := by
  by_cases hk : k ∈ keysOf m
  · rw [keysOf_mapSet_mem m k v hk]; exact h
  · rw [keysOf_mapSet_new m k v hk]
    simp [List.nodup_append, h, hk]

theorem mapGet_of_mem_nodup {α : Type} (m : List (Nat × α)) (k : Nat) (v : α)
    (hnd : (keysOf m).Nodup) (hmem : (k, v) ∈ m) : mapGet m k = some v := by
  induction m with
  | nil => simp at hmem
  | cons p rest ih =>
    have hnd1 : p.1 ∉ keysOf rest := (List.nodup_cons.mp hnd).1
    have hnd2 : (keysOf rest).Nodup := (List.nodup_cons.mp hnd).2
    rcases List.mem_cons.mp hmem with h | h
    · rw [← h]; simp [mapGet]
    · have hk : k ∈ keysOf rest := by
        simp only [keysOf, List.mem_map]
        exact ⟨(k, v), h, rfl⟩
      have hne : p.1 ≠ k := fun he => hnd1 (he ▸ hk)
      simp [mapGet, hne, ih hnd2 h]

/-! ### Characterization of the build phase -/

/-- Number of input edges targeting `x` (all edges: the code's in-degree
update never checks that the source exists). -/
def tgtCount (deps : List DependencyEdge) (x : Nat) : Nat :=
  (deps.filter (fun d => decide (d.target_step_id = x))).length

/-- The adjacency value the code ends up with for a present source `u`:
the targets of the edges out of `u`, in edge order. -/
def outTargets (deps : List DependencyEdge) (u : Nat) : List Nat :=
  (deps.filter (fun d => decide (d.source_step_id = u))).map (·.target_step_id)

theorem initAdj_get (steps : List StepNode) (u : Nat) :
    mapGet (initAdj steps) u = if u ∈ stepIds steps then some [] else none := by
  suffices h : ∀ (m : List (Nat × List Nat)),
      mapGet (steps.foldl (fun m s => mapSet m s.id []) m) u =
        if u ∈ stepIds steps then some [] else mapGet m u by
    simpa using h []
  induction steps with
  | nil => simp [stepIds]
  | cons s ss ih =>
    intro m
    have hcons : u ∈ stepIds (s :: ss) ↔ u = s.id ∨ u ∈ stepIds ss := by
      simp [stepIds]
    rw [List.foldl_cons, ih]
    by_cases hss : u ∈ stepIds ss
    · rw [if_pos hss, if_pos (hcons.mpr (Or.inr hss))]
    · rw [if_neg hss]
      by_cases hs : s.id = u
      · rw [if_pos (hcons.mpr (Or.inl hs.symm)), hs, mapGet_mapSet_self]
      · rw [if_neg (fun h => (hcons.mp h).elim (fun h1 => hs h1.symm) hss),
          mapGet_mapSet_ne _ _ _ _ (Ne.symm hs)]

theorem initInDeg_get (steps : List StepNode) (u : Nat) :
    mapGet (initInDeg steps) u = if u ∈ stepIds steps then some 0 else none := by
  suffices h : ∀ (m : List (Nat × Int)),
      mapGet (steps.foldl (fun m s => mapSet m s.id 0) m) u =
        if u ∈ stepIds steps then some 0 else mapGet m u by
    simpa using h []
  induction steps with
  | nil => simp [stepIds]
  | cons s ss ih =>
    intro m
    have hcons : u ∈ stepIds (s :: ss) ↔ u = s.id ∨ u ∈ stepIds ss := by
      simp [stepIds]
    rw [List.foldl_cons, ih]
    by_cases hss : u ∈ stepIds ss
    · rw [if_pos hss, if_pos (hcons.mpr (Or.inr hss))]
    · rw [if_neg hss]
      by_cases hs : s.id = u
      · rw [if_pos (hcons.mpr (Or.inl hs.symm)), hs, mapGet_mapSet_self]
      · rw [if_neg (fun h => (hcons.mp h).elim (fun h1 => hs h1.symm) hss),
          mapGet_mapSet_ne _ _ _ _ (Ne.symm hs)]

theorem addEdges_adj (deps : List DependencyEdge) :
    ∀ (adj : List (Nat × List Nat)) (deg : List (Nat × Int)) (u : Nat),
      mapGet (deps.foldl addEdge (adj, deg)).1 u =
        (mapGet adj u).map (fun l => l ++ outTargets deps u) := by
  induction deps with
  | nil =>
    intro adj deg u
    cases h : mapGet adj u <;> simp [outTargets, h]
  | cons d ds ih =>
    intro adj deg u
    rw [List.foldl_cons, ih]
    by_cases hu : d.source_step_id = u
    · cases hadj : mapGet adj u with
      | none =>
        simp [addEdge, hu, hadj]
      | some l =>
        simp only [addEdge, hu, hadj, mapGet_mapSet_self, Option.map_some]
        simp [outTargets, hu, hadj, List.filter_cons]
    · have hadj1 : mapGet (addEdge (adj, deg) d).1 u = mapGet adj u := by
        simp only [addEdge]
        cases hsrc : mapGet adj d.source_step_id with
        | none => simp
        | some l => simp [mapGet_mapSet_ne _ _ _ _ (Ne.symm hu)]
      rw [hadj1]
      simp [outTargets, List.filter_cons, hu]

theorem addEdges_deg (deps : List DependencyEdge) :
    ∀ (adj : List (Nat × List Nat)) (deg : List (Nat × Int)) (x : Nat),
      mapGet (deps.foldl addEdge (adj, deg)).2 x =
        if tgtCount deps x = 0 then mapGet deg x
        else some ((mapGet deg x).getD 0 + (tgtCount deps x : Int)) := by
  induction deps with
  | nil => intro adj deg x; simp [tgtCount]
  | cons d ds ih =>
    intro adj deg x
    rw [List.foldl_cons, ih]
    by_cases hx : d.target_step_id = x
    · have hc : tgtCount (d :: ds) x = tgtCount ds x + 1 := by
        simp [tgtCount, List.filter_cons, hx, Nat.add_comm]
      have hget1 : mapGet (addEdge (adj, deg) d).2 x =
          some ((mapGet deg x).getD 0 + 1) := by
        simp only [addEdge, hx, mapGet_mapSet_self]
      by_cases hc0 : tgtCount ds x = 0
      · simp [hc, hc0, hget1]
      · simp only [hc, hc0, if_neg hc0, hget1]
        simp only [if_neg (by omega : ¬ tgtCount ds x + 1 = 0), Option.getD_some]
        push_cast
        ring_nf
    · have hc : tgtCount (d :: ds) x = tgtCount ds x := by
        simp [tgtCount, List.filter_cons, hx]
      have hget1 : mapGet (addEdge (adj, deg) d).2 x = mapGet deg x := by
        simp only [addEdge]
        exact mapGet_mapSet_ne _ _ _ _ (Ne.symm hx)
      rw [hc, hget1]

/-- The adjacency map after the build: a key per input node (and only
those), holding the targets of its outgoing edges in edge order. -/
theorem adjOutOf_get (steps : List StepNode) (deps : List DependencyEdge) (u : Nat) :
    mapGet (adjOutOf steps deps) u =
      if u ∈ stepIds steps then some (outTargets deps u) else none := by
  rw [adjOutOf, buildGraph, addEdges_adj, initAdj_get]
  by_cases h : u ∈ stepIds steps <;> simp [h]

/-- The in-degree map after the build: every input node has an entry, and
so does every edge target (even one absent from the node list); the value
counts all edges targeting the key, malformed or not. -/
theorem inDegOf_get (steps : List StepNode) (deps : List DependencyEdge) (x : Nat) :
    mapGet (inDegOf steps deps) x =
      if x ∈ stepIds steps ∨ tgtCount deps x ≠ 0
      then some (tgtCount deps x : Int) else none := by
  rw [inDegOf, buildGraph, addEdges_deg, initInDeg_get]
  by_cases hs : x ∈ stepIds steps
  · by_cases hc : tgtCount deps x = 0 <;> simp [hs, hc]
  · by_cases hc : tgtCount deps x = 0 <;> simp [hs, hc]

theorem nodup_keysOf_initInDeg (steps : List StepNode) :
    (keysOf (initInDeg steps)).Nodup := by
  suffices h : ∀ (m : List (Nat × Int)), (keysOf m).Nodup →
      (keysOf (steps.foldl (fun m s => mapSet m s.id 0) m)).Nodup by
    exact h [] (by simp [keysOf])
  induction steps with
  | nil => intro m hm; simpa using hm
  | cons s ss ih =>
    intro m hm
    rw [List.foldl_cons]
    exact ih _ (nodup_keysOf_mapSet _ _ _ hm)

theorem nodup_keysOf_inDegOf (steps : List StepNode) (deps : List DependencyEdge) :
    (keysOf (inDegOf steps deps)).Nodup := by
  rw [inDegOf, buildGraph]
  suffices h : ∀ (st : List (Nat × List Nat) × List (Nat × Int)), (keysOf st.2).Nodup →
      (keysOf (deps.foldl addEdge st).2).Nodup by
    exact h _ (nodup_keysOf_initInDeg steps)
  induction deps with
  | nil => intro st hm; simpa using hm
  | cons d ds ih =>
    intro st hm
    rw [List.foldl_cons]
    exact ih _ (nodup_keysOf_mapSet _ _ _ hm)

/-! ### Generic list helpers -/

theorem mapGet_mapSet {α : Type} (m : List (Nat × α)) (k k' : Nat) (v : α) :
    mapGet (mapSet m k v) k' = if k = k' then some v else mapGet m k' := by
  by_cases h : k = k'
  · rw [if_pos h, h, mapGet_mapSet_self]
  · rw [if_neg h, mapGet_mapSet_ne _ _ _ _ (Ne.symm h)]

/-- Occurrences of `x` in a list of identifiers. -/
def cntOf (l : List Nat) (x : Nat) : Nat :=
  (l.filter (fun t => decide (t = x))).length

theorem cntOf_nil (x : Nat) : cntOf [] x = 0 := rfl

theorem cntOf_cons (t : Nat) (l : List Nat) (x : Nat) :
    cntOf (t :: l) x = (if t = x then 1 else 0) + cntOf l x := by
  by_cases h : t = x <;> simp [cntOf, List.filter_cons, h, Nat.add_comm]

/-- Maximum of a list of naturals, `0` for the empty list. -/
def natMax (l : List Nat) : Nat := l.foldr Nat.max 0

theorem natMax_nil : natMax [] = 0 := rfl

theorem natMax_cons (a : Nat) (l : List Nat) : natMax (a :: l) = Nat.max a (natMax l) := rfl

theorem natMax_append (l1 l2 : List Nat) :
    natMax (l1 ++ l2) = Nat.max (natMax l1) (natMax l2) := by
  induction l1 with
  | nil => simp [natMax]
  | cons a l ih => simp [natMax_cons, ih, Nat.max_assoc]

theorem le_natMax_of_mem {a : Nat} {l : List Nat} (h : a ∈ l) : a ≤ natMax l := by
  induction l with
  | nil => simp at h
  | cons b l ih =>
    rw [natMax_cons]
    rcases List.mem_cons.mp h with h1 | h1
    · exact h1 ▸ Nat.le_max_left _ _
    · exact Nat.le_trans (ih h1) (Nat.le_max_right _ _)

theorem natMax_mem {l : List Nat} (h : natMax l ≠ 0) : natMax l ∈ l := by
  induction l with
  | nil => simp [natMax_nil] at h
  | cons a l ih =>
    rw [natMax_cons] at h ⊢
    rcases Nat.le_total a (natMax l) with hle | hle
    · have hm : Nat.max a (natMax l) = natMax l := Nat.max_eq_right hle
      rw [hm] at h ⊢
      exact List.mem_cons_of_mem _ (ih h)
    · have hm : Nat.max a (natMax l) = a := Nat.max_eq_left hle
      rw [hm]
      exact List.mem_cons_self _ _

theorem filter_length_mono {α : Type} (l : List α) (p q : α → Bool)
    (h : ∀ a ∈ l, p a = true → q a = true) :
    (l.filter p).length ≤ (l.filter q).length := by
  induction l with
  | nil => simp
  | cons a l ih =>
    have ih' := ih (fun b hb => h b (List.mem_cons_of_mem _ hb))
    by_cases hp : p a = true
    · rw [List.filter_cons, if_pos hp, List.filter_cons,
        if_pos (h a (List.mem_cons_self _ _) hp)]
      simpa using ih'
    · rw [List.filter_cons, if_neg hp, List.filter_cons]
      by_cases hq : q a = true
      · rw [if_pos hq]
        exact Nat.le_trans ih' (by simp)
      · rw [if_neg hq]
        exact ih'

theorem filter_length_eq_forall {α : Type} (l : List α) (p q : α → Bool)
    (himp : ∀ a ∈ l, p a = true → q a = true)
    (hlen : (l.filter q).length ≤ (l.filter p).length) :
    ∀ a ∈ l, q a = true → p a = true := by
  induction l with
  | nil => simp
  | cons a l ih =>
    have himp' : ∀ b ∈ l, p b = true → q b = true :=
      fun b hb => himp b (List.mem_cons_of_mem _ hb)
    by_cases hq : q a = true
    · by_cases hp : p a = true
      · have hlen' : (l.filter q).length ≤ (l.filter p).length := by
          simp only [List.filter_cons, hp, hq, if_true] at hlen
          simpa using hlen
        intro b hb hqb
        rcases List.mem_cons.mp hb with h1 | h1
        · exact h1 ▸ hp
        · exact ih himp' hlen' b h1 hqb
      · exfalso
        have h1 : (l.filter q).length + 1 ≤ (l.filter p).length := by
          simp only [List.filter_cons, hq, if_true, if_neg hp] at hlen
          simpa using hlen
        have h2 := filter_length_mono l p q himp'
        omega
    · have hpa : p a ≠ true := fun hp => hq (himp a (List.mem_cons_self _ _) hp)
      have hlen' : (l.filter q).length ≤ (l.filter p).length := by
        simp only [List.filter_cons, if_neg hq, if_neg hpa] at hlen
        exact hlen
      intro b hb hqb
      rcases List.mem_cons.mp hb with h1 | h1
      · exact absurd (h1 ▸ hqb) hq
      · exact ih himp' hlen' b h1 hqb

theorem nodup_get?_not_mem_take {l : List Nat} {n : Nat} {a : Nat}
    (hnd : l.Nodup) (hget : l.get? n = some a) : a ∉ l.take n := by
  induction l generalizing n with
  | nil => simp [List.get?] at hget
  | cons b l ih =>
    cases n with
    | zero => simp
    | succ m =>
      simp only [List.get?] at hget
      have hmem : a ∈ l := List.get?_mem hget
      intro hin
      rcases List.mem_cons.mp (by simpa using hin) with h1 | h1
      · exact (List.nodup_cons.mp hnd).1 (h1 ▸ hmem)
      · exact ih (List.nodup_cons.mp hnd).2 hget h1

/-! ### The main-loop invariant -/

/-- The already-dequeued part of the queue. -/
def processedOf (st : LState) : List Nat := st.queue.take st.head

/-- Number of in-degree decrements applied to `x` after processing the
nodes of `P`: one per edge into `x` whose source is in `P` and is a real
node (only real sources have adjacency lists). -/
def decrOf (steps : List StepNode) (deps : List DependencyEdge) (P : List Nat) (x : Nat) : Nat :=
  (deps.filter (fun d =>
    decide (d.target_step_id = x ∧ d.source_step_id ∈ P ∧ d.source_step_id ∈ stepIds steps))).length

/-- The `lvl + 1` contributions pushed into `level.get(x)` by the processed
nodes that have an edge to `x`. -/
def contribList (steps : List StepNode) (deps : List DependencyEdge) (P : List Nat)
    (L : List (Nat × Nat)) (x : Nat) : List Nat :=
  P.filterMap (fun u =>
    if x ∈ (mapGet (adjOutOf steps deps) u).getD []
    then some ((mapGet L u).getD 0 + 1) else none)

/-- The invariant maintained by every iteration of the Kahn-style loop. -/
structure LoopInv (steps : List StepNode) (deps : List DependencyEdge) (st : LState) : Prop where
  head_le : st.head ≤ st.queue.length
  nodup : st.queue.Nodup
  deg_eq : ∀ x, mapGet st.inDeg x =
    (mapGet (inDegOf steps deps) x).map
      (fun d0 => d0 - (decrOf steps deps (processedOf st) x : Int))
  queue_nonpos : ∀ x ∈ st.queue, ∃ d, mapGet st.inDeg x = some d ∧ d ≤ 0
  level_eq : ∀ x, (mapGet st.level x).getD 0 =
    natMax (contribList steps deps (processedOf st) st.level x)
  groups_eq : ∀ lvl, (mapGet st.groups lvl).getD [] =
    (processedOf st).filter (fun u => decide ((mapGet st.level u).getD 0 = lvl))

/-- Every edge into a queued identifier has a processed, real source:
a consequence of the in-degree bookkeeping (the recorded decrement count
can reach the total in-edge count only if every in-edge was decremented). -/
theorem inv_edge_sources {steps : List StepNode} {deps : List DependencyEdge} {st : LState}
    (hinv : LoopInv steps deps st) {x : Nat} (hx : x ∈ st.queue) :
    ∀ d ∈ deps, d.target_step_id = x →
      d.source_step_id ∈ processedOf st ∧ d.source_step_id ∈ stepIds steps := by
  obtain ⟨dv, hdv, hdv0⟩ := hinv.queue_nonpos x hx
  rw [hinv.deg_eq x] at hdv
  cases hd0 : mapGet (inDegOf steps deps) x with
  | none => rw [hd0] at hdv; simp at hdv
  | some d0 =>
    rw [hd0] at hdv
    have hdv : d0 - (decrOf steps deps (processedOf st) x : Int) = dv := by
      simpa using hdv
    have hd0v : d0 = (tgtCount deps x : Int) := by
      rw [inDegOf_get] at hd0
      by_cases hc : x ∈ stepIds steps ∨ tgtCount deps x ≠ 0
      · rw [if_pos hc] at hd0; exact (Option.some_inj.mp hd0).symm
      · rw [if_neg hc] at hd0; simp at hd0
    have hge : tgtCount deps x ≤ decrOf steps deps (processedOf st) x := by
      have : (tgtCount deps x : Int) - (decrOf steps deps (processedOf st) x : Int) ≤ 0 := by
        rw [← hd0v, hdv]
        exact hdv0
      omega
    have himp : ∀ d ∈ deps,
        (decide (d.target_step_id = x ∧ d.source_step_id ∈ processedOf st ∧
          d.source_step_id ∈ stepIds steps)) = true →
        (decide (d.target_step_id = x)) = true := by
      intro d _ hd
      simp only [decide_eq_true_eq] at hd ⊢
      exact hd.1
    have hfla := filter_length_eq_forall deps _ _ himp (by
      show tgtCount deps x ≤ decrOf steps deps (processedOf st) x
      exact hge)
    intro d hd htgt
    have := hfla d hd (by simp [htgt])
    simp only [decide_eq_true_eq] at this
    exact ⟨this.2.1, this.2.2⟩

/-- A queued identifier is never among the adjacency targets of an
unprocessed node. -/
theorem inv_target_not_queued {steps : List StepNode} {deps : List DependencyEdge} {st : LState}
    (hinv : LoopInv steps deps st) {u x : Nat} (hx : x ∈ st.queue)
    (hu : u ∉ processedOf st) : x ∉ (mapGet (adjOutOf steps deps) u).getD [] := by
  intro hmem
  rw [adjOutOf_get] at hmem
  by_cases hids : u ∈ stepIds steps
  · rw [if_pos hids] at hmem
    simp only [Option.getD_some, outTargets, List.mem_map] at hmem
    obtain ⟨d, hd, htgt⟩ := hmem
    have hdmem : d ∈ deps ∧ d.source_step_id = u := by
      have := List.mem_filter.mp hd
      simpa using this
    exact hu (hdmem.2 ▸ (inv_edge_sources hinv hx d hdmem.1 htgt).1)
  · rw [if_neg hids] at hmem
    simp at hmem

/-- Adjacency targets always have an in-degree entry (the edge that put
them into the adjacency list also bumped their in-degree). -/
theorem adj_target_deg_key {steps : List StepNode} {deps : List DependencyEdge} {u x : Nat}
    (hmem : x ∈ (mapGet (adjOutOf steps deps) u).getD []) :
    mapGet (inDegOf steps deps) x = some (tgtCount deps x : Int) ∧ 1 ≤ tgtCount deps x := by
  rw [adjOutOf_get] at hmem
  by_cases hids : u ∈ stepIds steps
  · rw [if_pos hids] at hmem
    simp only [Option.getD_some, outTargets, List.mem_map] at hmem
    obtain ⟨d, hd, htgt⟩ := hmem
    have hdmem : d ∈ deps := (List.mem_filter.mp hd).1
    have hcnt : 1 ≤ tgtCount deps x := by
      have : d ∈ deps.filter (fun d => decide (d.target_step_id = x)) :=
        List.mem_filter.mpr ⟨hdmem, by simp [htgt]⟩
      have hlen := List.length_pos.mpr (List.ne_nil_of_mem this)
      simpa [tgtCount] using hlen
    refine ⟨?_, hcnt⟩
    rw [inDegOf_get, if_pos (Or.inr (by omega))]
  · rw [if_neg hids] at hmem
    simp at hmem

/-- Effect of folding `relaxEdge` over a target list `ts`: the head and
groups are untouched, the queue only grows (staying duplicate-free, all
members at non-positive in-degree), every in-degree drops by the number of
occurrences in `ts`, and every level in `ts` is maxed with `lvl + 1`. -/
theorem relaxFold (lvl : Nat) (ts : List Nat) :
    ∀ (s : LState),
      (∀ t ∈ ts, mapGet s.inDeg t ≠ none) →
      s.queue.Nodup →
      (∀ x ∈ s.queue, ∃ d, mapGet s.inDeg x = some d ∧ d ≤ 0) →
      (ts.foldl (relaxEdge lvl) s).head = s.head ∧
      (ts.foldl (relaxEdge lvl) s).groups = s.groups ∧
      (∃ ext, (ts.foldl (relaxEdge lvl) s).queue = s.queue ++ ext) ∧
      (ts.foldl (relaxEdge lvl) s).queue.Nodup ∧
      (∀ x ∈ (ts.foldl (relaxEdge lvl) s).queue,
        ∃ d, mapGet (ts.foldl (relaxEdge lvl) s).inDeg x = some d ∧ d ≤ 0) ∧
      (∀ x, mapGet (ts.foldl (relaxEdge lvl) s).inDeg x =
        (mapGet s.inDeg x).map (fun d => d - (cntOf ts x : Int))) ∧
      (∀ x, (mapGet (ts.foldl (relaxEdge lvl) s).level x).getD 0 =
        if x ∈ ts then Nat.max ((mapGet s.level x).getD 0) (lvl + 1)
        else (mapGet s.level x).getD 0) := by
  induction ts with
  | nil =>
    intro s _ hnodup hqnp
    refine ⟨rfl, rfl, ⟨[], by simp⟩, hnodup, hqnp, ?_, ?_⟩
    · intro x
      cases h : mapGet s.inDeg x <;> simp [cntOf, h]
    · intro x
      simp
  | cons t ts ih =>
    intro s hkeys hnodup hqnp
    obtain ⟨v, hv⟩ : ∃ v, mapGet s.inDeg t = some v := by
      cases hm : mapGet s.inDeg t with
      | none => exact absurd hm (hkeys t (List.mem_cons_self _ _))
      | some v => exact ⟨v, rfl⟩
    have h_inDeg : (relaxEdge lvl s t).inDeg = mapSet s.inDeg t (v - 1) := by
      simp [relaxEdge, hv]
    have h_level : (relaxEdge lvl s t).level =
        mapSet s.level t (Nat.max ((mapGet s.level t).getD 0) (lvl + 1)) := by
      simp [relaxEdge]
    have h_queue : (relaxEdge lvl s t).queue =
        if v - 1 = 0 then s.queue ++ [t] else s.queue := by
      simp [relaxEdge, hv]
    have h_head : (relaxEdge lvl s t).head = s.head := by simp [relaxEdge]
    have h_groups : (relaxEdge lvl s t).groups = s.groups := by simp [relaxEdge]
    have hkeys1 : ∀ t' ∈ ts, mapGet (relaxEdge lvl s t).inDeg t' ≠ none := by
      intro t' ht'
      rw [h_inDeg, mapGet_mapSet]
      by_cases he : t = t'
      · simp [he]
      · rw [if_neg he]
        exact hkeys t' (List.mem_cons_of_mem _ ht')
    have ht_notin : v - 1 = 0 → t ∉ s.queue := by
      intro hv0 htq
      obtain ⟨d, hd, hd0⟩ := hqnp t htq
      rw [hv] at hd
      have : d = v := Option.some_inj.mp hd.symm
      omega
    have hnodup1 : (relaxEdge lvl s t).queue.Nodup := by
      rw [h_queue]
      by_cases hv0 : v - 1 = 0
      · rw [if_pos hv0]
        simp [List.nodup_append, hnodup, ht_notin hv0]
      · rw [if_neg hv0]
        exact hnodup
    have hqnp1 : ∀ x ∈ (relaxEdge lvl s t).queue,
        ∃ d, mapGet (relaxEdge lvl s t).inDeg x = some d ∧ d ≤ 0 := by
      intro x hx
      rw [h_queue] at hx
      rw [h_inDeg, mapGet_mapSet]
      by_cases he : t = x
      · rw [if_pos he]
        refine ⟨v - 1, rfl, ?_⟩
        by_cases hv0 : v - 1 = 0
        · omega
        · have hxq : x ∈ s.queue := by
            rw [if_neg hv0] at hx
            exact hx
          obtain ⟨d, hd, hd0⟩ := hqnp x hxq
          rw [← he, hv] at hd
          have : d = v := Option.some_inj.mp hd.symm
          omega
      · rw [if_neg he]
        apply hqnp
        by_cases hv0 : v - 1 = 0
        · rw [if_pos hv0] at hx
          rcases List.mem_append.mp hx with h1 | h1
          · exact h1
          · simp at h1
            exact absurd h1.symm he
        · rw [if_neg hv0] at hx
          exact hx
    obtain ⟨ih_head, ih_groups, ⟨ext1, ih_ext⟩, ih_nodup, ih_qnp, ih_deg, ih_lvl⟩ :=
      ih (relaxEdge lvl s t) hkeys1 hnodup1 hqnp1
    rw [List.foldl_cons]
    refine ⟨by rw [ih_head, h_head], by rw [ih_groups, h_groups], ?_, ih_nodup, ih_qnp, ?_, ?_⟩
    · refine ⟨(if v - 1 = 0 then [t] else []) ++ ext1, ?_⟩
      rw [ih_ext, h_queue]
      by_cases hv0 : v - 1 = 0 <;> simp [hv0]
    · intro x
      rw [ih_deg x, h_inDeg, mapGet_mapSet, cntOf_cons]
      by_cases he : t = x
      · rw [if_pos he, if_pos (he ▸ rfl : t = x), ← he, hv]
        simp only [Option.map_some']
        congr 1
        push_cast
        ring
      · rw [if_neg he, if_neg he]
        cases mapGet s.inDeg x <;> simp
    · intro x
      rw [ih_lvl x, h_level]
      have hget : (mapGet (mapSet s.level t
          (Nat.max ((mapGet s.level t).getD 0) (lvl + 1))) x).getD 0 =
          if t = x then Nat.max ((mapGet s.level x).getD 0) (lvl + 1)
          else (mapGet s.level x).getD 0 := by
        rw [mapGet_mapSet]
        by_cases he : t = x
        · rw [if_pos he, if_pos he, he]
          simp
        · rw [if_neg he, if_neg he]
      rw [hget]
      by_cases he : t = x
      · by_cases hts : x ∈ ts
        · rw [if_pos hts, if_pos he, if_pos (by rw [he]; exact List.mem_cons_self _ _)]
          rcases Nat.le_total ((mapGet s.level x).getD 0) (lvl + 1) with h1 | h1
          · have h2 : Nat.max ((mapGet s.level x).getD 0) (lvl + 1) = lvl + 1 :=
              Nat.max_eq_right h1
            rw [h2]
            exact Nat.max_self _
          · have h2 : Nat.max ((mapGet s.level x).getD 0) (lvl + 1) =
                (mapGet s.level x).getD 0 := Nat.max_eq_left h1
            rw [h2]
            exact Nat.max_eq_left h1
        · rw [if_neg hts, if_pos he, if_pos (by rw [he]; exact List.mem_cons_self _ _)]
      · by_cases hts : x ∈ ts
        · rw [if_pos hts, if_neg he, if_pos (List.mem_cons_of_mem _ hts)]
        · rw [if_neg hts, if_neg he,
            if_neg (fun h => (List.mem_cons.mp h).elim (fun h1 => he h1.symm) hts)]

theorem filter_length_or {α : Type} (l : List α) (p q : α → Bool)
    (hdisj : ∀ a ∈ l, ¬(p a = true ∧ q a = true)) :
    (l.filter (fun a => p a || q a)).length = (l.filter p).length + (l.filter q).length := by
  induction l with
  | nil => simp
  | cons a l ih =>
    have ih' := ih (fun b hb => hdisj b (List.mem_cons_of_mem _ hb))
    have hda := hdisj a (List.mem_cons_self _ _)
    cases hp : p a <;> cases hq : q a <;>
      simp_all [List.filter_cons, hp, hq] <;> omega

/-- Splitting the decrement count when one more (fresh) node is processed. -/
theorem decr_snoc (steps : List StepNode) (deps : List DependencyEdge)
    (P : List Nat) (id : Nat) (x : Nat) (hid : id ∉ P) :
    decrOf steps deps (P ++ [id]) x =
      decrOf steps deps P x +
        (deps.filter (fun d => decide (d.target_step_id = x ∧ d.source_step_id = id ∧
          id ∈ stepIds steps))).length := by
  rw [decrOf, decrOf]
  have hcong : deps.filter (fun d =>
      decide (d.target_step_id = x ∧ d.source_step_id ∈ P ++ [id] ∧
        d.source_step_id ∈ stepIds steps)) =
      deps.filter (fun d =>
        decide (d.target_step_id = x ∧ d.source_step_id ∈ P ∧
          d.source_step_id ∈ stepIds steps) ||
        decide (d.target_step_id = x ∧ d.source_step_id = id ∧ id ∈ stepIds steps)) := by
    apply List.filter_congr
    intro d _
    rw [← Bool.decide_or, decide_eq_decide]
    constructor
    · rintro ⟨h1, h2, h3⟩
      rcases List.mem_append.mp h2 with h4 | h4
      · exact Or.inl ⟨h1, h4, h3⟩
      · have h5 : d.source_step_id = id := by simpa using h4
        exact Or.inr ⟨h1, h5, h5 ▸ h3⟩
    · rintro (⟨h1, h2, h3⟩ | ⟨h1, h2, h3⟩)
      · exact ⟨h1, List.mem_append.mpr (Or.inl h2), h3⟩
      · exact ⟨h1, List.mem_append.mpr (Or.inr (by simp [h2])), h2 ▸ h3⟩
  rw [hcong]
  apply filter_length_or
  intro d _ ⟨h1, h2⟩
  simp only [decide_eq_true_eq] at h1 h2
  exact hid (h2.2.1 ▸ h1.2.1)

/-- The multiplicity of `x` among the adjacency targets of `id` equals the
number of edges `id → x` (zero when `id` is not a real node). -/
theorem cntOf_adj (steps : List StepNode) (deps : List DependencyEdge) (id x : Nat) :
    cntOf ((mapGet (adjOutOf steps deps) id).getD []) x =
      (deps.filter (fun d => decide (d.target_step_id = x ∧ d.source_step_id = id ∧
        id ∈ stepIds steps))).length := by
  rw [adjOutOf_get]
  by_cases hids : id ∈ stepIds steps
  · rw [if_pos hids]
    simp only [Option.getD_some]
    have hpred : ∀ d ∈ deps,
        (decide (d.target_step_id = x ∧ d.source_step_id = id ∧ id ∈ stepIds steps)) =
        (decide (d.target_step_id = x ∧ d.source_step_id = id)) := by
      intro d _
      simp [hids]
    rw [List.filter_congr hpred, cntOf, outTargets]
    clear hpred
    induction deps with
    | nil => simp
    | cons d ds ih =>
      by_cases hsrc : d.source_step_id = id
      · by_cases htgt : d.target_step_id = x
        · simp only [List.filter_cons, List.map_cons]
          rw [if_pos (by simp [hsrc]), if_pos (by simp [hsrc, htgt])]
          simp only [List.map_cons, List.filter_cons]
          rw [if_pos (by simp [htgt])]
          simp only [List.length_cons]
          rw [ih]
        · simp only [List.filter_cons, List.map_cons]
          rw [if_pos (by simp [hsrc]), if_neg (by simp [htgt])]
          simp only [List.map_cons, List.filter_cons]
          rw [if_neg (by simp [htgt])]
          exact ih
      · simp only [List.filter_cons]
        rw [if_neg (by simp [hsrc]), if_neg (by simp [hsrc])]
        exact ih
  · rw [if_neg hids]
    have hz : ∀ d ∈ deps, decide (d.target_step_id = x ∧ d.source_step_id = id ∧
        id ∈ stepIds steps) = false := by
      intro d _
      simp [hids]
    have : deps.filter (fun d => decide (d.target_step_id = x ∧ d.source_step_id = id ∧
        id ∈ stepIds steps)) = [] := by
      rw [List.filter_eq_nil_iff]
      intro d hd
      simp [hz d hd]
    rw [this]
    simp [cntOf]

theorem contribList_congr (steps : List StepNode) (deps : List DependencyEdge)
    (P : List Nat) (L1 L2 : List (Nat × Nat)) (x : Nat)
    (h : ∀ u ∈ P, (mapGet L1 u).getD 0 = (mapGet L2 u).getD 0) :
    contribList steps deps P L1 x = contribList steps deps P L2 x := by
  rw [contribList, contribList]
  apply List.filterMap_congr
  intro u hu
  rw [h u hu]

theorem contribList_append (steps : List StepNode) (deps : List DependencyEdge)
    (P1 P2 : List Nat) (L : List (Nat × Nat)) (x : Nat) :
    contribList steps deps (P1 ++ P2) L x =
      contribList steps deps P1 L x ++ contribList steps deps P2 L x := by
  rw [contribList, contribList, contribList, List.filterMap_append]

theorem contribList_single (steps : List StepNode) (deps : List DependencyEdge)
    (id : Nat) (L : List (Nat × Nat)) (x : Nat) :
    contribList steps deps [id] L x =
      if x ∈ (mapGet (adjOutOf steps deps) id).getD []
      then [(mapGet L id).getD 0 + 1] else [] := by
  rw [contribList]
  by_cases h : x ∈ (mapGet (adjOutOf steps deps) id).getD [] <;>
    simp [List.filterMap, h]

theorem natMax_singleton (a : Nat) : natMax [a] = a := by
  rw [natMax_cons, natMax_nil]
  exact Nat.max_eq_left (Nat.zero_le _)

/-- `relaxFold` restated for a state given by explicit fields. -/
theorem relaxFold' (lvl : Nat) (ts : List Nat) (q : List Nat) (hd : Nat)
    (L : List (Nat × Nat)) (G : List (Nat × List Nat)) (D : List (Nat × Int))
    (hkeys : ∀ t ∈ ts, mapGet D t ≠ none) (hnodup : q.Nodup)
    (hqnp : ∀ x ∈ q, ∃ d, mapGet D x = some d ∧ d ≤ 0) :
    (ts.foldl (relaxEdge lvl) ⟨q, hd, L, G, D⟩).head = hd ∧
    (ts.foldl (relaxEdge lvl) ⟨q, hd, L, G, D⟩).groups = G ∧
    (∃ ext, (ts.foldl (relaxEdge lvl) ⟨q, hd, L, G, D⟩).queue = q ++ ext) ∧
    (ts.foldl (relaxEdge lvl) ⟨q, hd, L, G, D⟩).queue.Nodup ∧
    (∀ x ∈ (ts.foldl (relaxEdge lvl) ⟨q, hd, L, G, D⟩).queue,
      ∃ d, mapGet (ts.foldl (relaxEdge lvl) ⟨q, hd, L, G, D⟩).inDeg x = some d ∧ d ≤ 0) ∧
    (∀ x, mapGet (ts.foldl (relaxEdge lvl) ⟨q, hd, L, G, D⟩).inDeg x =
      (mapGet D x).map (fun d => d - (cntOf ts x : Int))) ∧
    (∀ x, (mapGet (ts.foldl (relaxEdge lvl) ⟨q, hd, L, G, D⟩).level x).getD 0 =
      if x ∈ ts then Nat.max ((mapGet L x).getD 0) (lvl + 1) else (mapGet L x).getD 0) :=
  relaxFold lvl ts ⟨q, hd, L, G, D⟩ hkeys hnodup hqnp

/-- Unfolding of `processNode` at a dequeued identifier, component-wise. -/
theorem processNode_components (adj : List (Nat × List Nat)) (st : LState) {id : Nat}
    (hget : st.queue.get? st.head = some id) :
    (processNode adj st).queue =
      (((mapGet adj id).getD []).foldl (relaxEdge ((mapGet st.level id).getD 0))
        ⟨st.queue, st.head, st.level,
         mapSet st.groups ((mapGet st.level id).getD 0)
           ((mapGet st.groups ((mapGet st.level id).getD 0)).getD [] ++ [id]),
         st.inDeg⟩).queue ∧
    (processNode adj st).head =
      (((mapGet adj id).getD []).foldl (relaxEdge ((mapGet st.level id).getD 0))
        ⟨st.queue, st.head, st.level,
         mapSet st.groups ((mapGet st.level id).getD 0)
           ((mapGet st.groups ((mapGet st.level id).getD 0)).getD [] ++ [id]),
         st.inDeg⟩).head + 1 ∧
    (processNode adj st).level =
      (((mapGet adj id).getD []).foldl (relaxEdge ((mapGet st.level id).getD 0))
        ⟨st.queue, st.head, st.level,
         mapSet st.groups ((mapGet st.level id).getD 0)
           ((mapGet st.groups ((mapGet st.level id).getD 0)).getD [] ++ [id]),
         st.inDeg⟩).level ∧
    (processNode adj st).groups =
      (((mapGet adj id).getD []).foldl (relaxEdge ((mapGet st.level id).getD 0))
        ⟨st.queue, st.head, st.level,
         mapSet st.groups ((mapGet st.level id).getD 0)
           ((mapGet st.groups ((mapGet st.level id).getD 0)).getD [] ++ [id]),
         st.inDeg⟩).groups ∧
    (processNode adj st).inDeg =
      (((mapGet adj id).getD []).foldl (relaxEdge ((mapGet st.level id).getD 0))
        ⟨st.queue, st.head, st.level,
         mapSet st.groups ((mapGet st.level id).getD 0)
           ((mapGet st.groups ((mapGet st.level id).getD 0)).getD [] ++ [id]),
         st.inDeg⟩).inDeg := by
  have hget2 : st.queue[st.head]? = some id := by
    rw [← List.get?_eq_getElem?]
    exact hget
  simp [processNode, hget, hget2]

/-- The invariant is preserved by one loop iteration (and the head advances
by one while the queue only grows at the back). -/
theorem processNode_inv {steps : List StepNode} {deps : List DependencyEdge} {st : LState}
    (hinv : LoopInv steps deps st) (hlt : st.head < st.queue.length) :
    LoopInv steps deps (processNode (adjOutOf steps deps) st) ∧
    (processNode (adjOutOf steps deps) st).head = st.head + 1 ∧
    ∃ ext2, (processNode (adjOutOf steps deps) st).queue = st.queue ++ ext2 := by
  obtain ⟨id, hget⟩ : ∃ id, st.queue.get? st.head = some id := by
    cases hg : st.queue.get? st.head with
    | none =>
      rw [List.get?_eq_none] at hg
      omega
    | some a => exact ⟨a, rfl⟩
  have hidmem : id ∈ st.queue := List.get?_mem hget
  have hidnp : id ∉ processedOf st := nodup_get?_not_mem_take hinv.nodup hget
  have hP_sub : ∀ u ∈ processedOf st, u ∈ st.queue := fun u hu => List.take_subset _ _ hu
  have hts_notq : ∀ x ∈ st.queue, x ∉ (mapGet (adjOutOf steps deps) id).getD [] :=
    fun x hx => inv_target_not_queued hinv hx hidnp
  have hid_notts : id ∉ (mapGet (adjOutOf steps deps) id).getD [] := hts_notq id hidmem
  obtain ⟨hq, hh, hl, hg, hd⟩ := processNode_components (adjOutOf steps deps) st hget
  have hkeys1 : ∀ t ∈ (mapGet (adjOutOf steps deps) id).getD [], mapGet st.inDeg t ≠ none := by
    intro t ht
    obtain ⟨hdeg, _⟩ := adj_target_deg_key ht
    rw [hinv.deg_eq t, hdeg]
    simp
  obtain ⟨f_head, f_groups, ⟨ext, f_ext⟩, f_nodup, f_qnp, f_deg, f_lvl⟩ :=
    relaxFold' ((mapGet st.level id).getD 0) ((mapGet (adjOutOf steps deps) id).getD [])
      st.queue st.head st.level
      (mapSet st.groups ((mapGet st.level id).getD 0)
        ((mapGet st.groups ((mapGet st.level id).getD 0)).getD [] ++ [id]))
      st.inDeg hkeys1 hinv.nodup hinv.queue_nonpos
  have hPnew : processedOf (processNode (adjOutOf steps deps) st) =
      processedOf st ++ [id] := by
    rw [processedOf, hq, hh, f_head, f_ext]
    rw [List.take_append_of_le_length (by omega)]
    rw [List.take_succ]
    have hge : st.queue[st.head]? = some id := by
      rw [← List.get?_eq_getElem?]
      exact hget
    rw [hge]
    rfl
  have hlevels_stable : ∀ u ∈ processedOf st,
      (mapGet (((mapGet (adjOutOf steps deps) id).getD []).foldl
        (relaxEdge ((mapGet st.level id).getD 0))
        ⟨st.queue, st.head, st.level,
         mapSet st.groups ((mapGet st.level id).getD 0)
           ((mapGet st.groups ((mapGet st.level id).getD 0)).getD [] ++ [id]),
         st.inDeg⟩).level u).getD 0 = (mapGet st.level u).getD 0 := by
    intro u hu
    rw [f_lvl u, if_neg (hts_notq u (hP_sub u hu))]
  have hlid : (mapGet (((mapGet (adjOutOf steps deps) id).getD []).foldl
      (relaxEdge ((mapGet st.level id).getD 0))
      ⟨st.queue, st.head, st.level,
       mapSet st.groups ((mapGet st.level id).getD 0)
         ((mapGet st.groups ((mapGet st.level id).getD 0)).getD [] ++ [id]),
       st.inDeg⟩).level id).getD 0 = (mapGet st.level id).getD 0 := by
    rw [f_lvl id, if_neg hid_notts]
  refine ⟨⟨?_, ?_, ?_, ?_, ?_, ?_⟩, ?_, ?_⟩
  · -- head_le
    rw [hq, hh, f_head, f_ext, List.length_append]
    omega
  · -- nodup
    rw [hq]
    exact f_nodup
  · -- deg_eq
    intro x
    rw [hd, f_deg x, hinv.deg_eq x, hPnew,
      decr_snoc steps deps (processedOf st) id x hidnp, ← cntOf_adj steps deps id x]
    cases mapGet (inDegOf steps deps) x with
    | none => simp
    | some d0 =>
      simp only [Option.map_some']
      congr 1
      push_cast
      ring
  · -- queue_nonpos
    intro x hx
    rw [hq] at hx
    rw [hd]
    exact f_qnp x hx
  · -- level_eq
    intro x
    rw [hl, f_lvl x, hPnew, contribList_append, contribList_single, natMax_append]
    rw [contribList_congr steps deps (processedOf st) _ st.level x hlevels_stable]
    rw [hlid]
    by_cases hx : x ∈ (mapGet (adjOutOf steps deps) id).getD []
    · rw [if_pos hx, if_pos hx, natMax_singleton, hinv.level_eq x]
    · rw [if_neg hx, if_neg hx, natMax_nil, hinv.level_eq x]
      exact (Nat.max_eq_left (Nat.zero_le _)).symm
  · -- groups_eq
    intro l
    rw [hg, hl, f_groups, hPnew, List.filter_append]
    rw [List.filter_congr (fun u hu => by rw [hlevels_stable u hu] :
      ∀ u ∈ processedOf st,
        (decide ((mapGet (((mapGet (adjOutOf steps deps) id).getD []).foldl
          (relaxEdge ((mapGet st.level id).getD 0))
          ⟨st.queue, st.head, st.level,
           mapSet st.groups ((mapGet st.level id).getD 0)
             ((mapGet st.groups ((mapGet st.level id).getD 0)).getD [] ++ [id]),
           st.inDeg⟩).level u).getD 0 = l)) =
        (decide ((mapGet st.level u).getD 0 = l)))]
    rw [List.filter_singleton, hlid]
    rw [mapGet_mapSet]
    by_cases hll : (mapGet st.level id).getD 0 = l
    · rw [if_pos hll]
      simp only [Option.getD_some]
      rw [hll, hinv.groups_eq l]
      simp
    · rw [if_neg hll, hinv.groups_eq l]
      have hcond : (decide ((mapGet st.level id).getD 0 = l)) = false := by simp [hll]
      rw [hcond]
      simp
  · -- head advanced
    rw [hh, f_head]
  · -- queue extended
    exact ⟨ext, by rw [hq, f_ext]⟩

theorem nodup_subset_length {l l' : List Nat} (h1 : l.Nodup) (h2 : l ⊆ l') :
    l.length ≤ l'.length := by
  classical
  calc l.length = l.toFinset.card := (List.toFinset_card_of_nodup h1).symm
    _ ≤ l'.toFinset.card := Finset.card_le_card (fun x hx => by
        rw [List.mem_toFinset] at hx ⊢
        exact h2 hx)
    _ ≤ l'.length := l'.toFinset_card_le

/-- The invariant holds at the seeded starting state. -/
theorem LoopInv_init (steps : List StepNode) (deps : List DependencyEdge) :
    LoopInv steps deps
      ⟨((inDegOf steps deps).filter (fun p => p.2 = 0)).map (·.1), 0, [], [],
       inDegOf steps deps⟩ := by
  constructor
  · simp
  · have h1 : (((inDegOf steps deps).filter (fun p => p.2 = 0)).map (·.1)).Sublist
        (keysOf (inDegOf steps deps)) := by
      rw [keysOf]
      exact List.Sublist.map _ (List.filter_sublist _)
    exact (nodup_keysOf_inDegOf steps deps).sublist h1
  · intro x
    have hz : decrOf steps deps
        (processedOf ⟨((inDegOf steps deps).filter (fun p => p.2 = 0)).map (·.1), 0, [], [],
         inDegOf steps deps⟩) x = 0 := by
      simp [processedOf, decrOf]
    rw [hz]
    cases mapGet (inDegOf steps deps) x <;> simp
  · intro x hx
    simp only [List.mem_map] at hx
    obtain ⟨p, hp, hpx⟩ := hx
    have hpf := List.mem_filter.mp hp
    have hval : p.2 = 0 := by simpa using hpf.2
    have hm : mapGet (inDegOf steps deps) p.1 = some p.2 :=
      mapGet_of_mem_nodup _ _ _ (nodup_keysOf_inDegOf steps deps) hpf.1
    refine ⟨0, ?_, le_refl 0⟩
    rw [← hpx]
    rw [hm, hval]
  · intro x
    simp [processedOf, contribList, natMax, mapGet]
  · intro lvl
    simp [processedOf, mapGet]

/-- The invariant is preserved by the fueled loop. -/
theorem runLoop_inv (steps : List StepNode) (deps : List DependencyEdge) :
    ∀ (fuel : Nat) (st : LState), LoopInv steps deps st →
      LoopInv steps deps (runLoop (adjOutOf steps deps) fuel st) := by
  intro fuel
  induction fuel with
  | zero => intro st h; exact h
  | succ n ih =>
    intro st h
    rw [runLoop]
    by_cases hlt : st.head < st.queue.length
    · rw [if_pos hlt]
      exact ih _ (processNode_inv h hlt).1
    · rw [if_neg hlt]
      exact h

/-- With enough fuel the loop reaches its real exit condition: the head
index catches up with the queue length (i.e. the `while` loop finishes). -/
theorem runLoop_reaches (steps : List StepNode) (deps : List DependencyEdge) :
    ∀ (fuel : Nat) (st : LState), LoopInv steps deps st →
      (inDegOf steps deps).length ≤ fuel + st.head →
      (runLoop (adjOutOf steps deps) fuel st).head =
        (runLoop (adjOutOf steps deps) fuel st).queue.length := by
  intro fuel
  induction fuel with
  | zero =>
    intro st h hfuel
    have hsub : st.queue ⊆ keysOf (inDegOf steps deps) := by
      intro x hx
      obtain ⟨d, hd, _⟩ := h.queue_nonpos x hx
      rw [h.deg_eq x] at hd
      cases hd0 : mapGet (inDegOf steps deps) x with
      | none => rw [hd0] at hd; simp at hd
      | some v =>
        rw [← mapGet_isSome_iff, hd0]
        rfl
    have hlen : st.queue.length ≤ (keysOf (inDegOf steps deps)).length :=
      nodup_subset_length h.nodup hsub
    have hkl : (keysOf (inDegOf steps deps)).length = (inDegOf steps deps).length := by
      rw [keysOf, List.length_map]
    have hhl := h.head_le
    rw [runLoop]
    omega
  | succ n ih =>
    intro st h hfuel
    rw [runLoop]
    by_cases hlt : st.head < st.queue.length
    · rw [if_pos hlt]
      obtain ⟨hinv', hhead', _⟩ := processNode_inv h hlt
      exact ih _ hinv' (by omega)
    · rw [if_neg hlt]
      have := h.head_le
      omega

/-- The final loop state satisfies the invariant and the loop has really
finished: every enqueued identifier has been dequeued. -/
theorem kahn_final (steps : List StepNode) (deps : List DependencyEdge) :
    LoopInv steps deps (kahnState steps deps) ∧
    (kahnState steps deps).head = (kahnState steps deps).queue.length := by
  rw [kahnState]
  refine ⟨runLoop_inv steps deps _ _ (LoopInv_init steps deps), ?_⟩
  exact runLoop_reaches steps deps _ _ (LoopInv_init steps deps) (by omega)

theorem processedOf_final {st : LState} (h : st.head = st.queue.length) :
    processedOf st = st.queue := by
  rw [processedOf, h, List.take_length]

/-! ### Characterization of the positioning phase -/

/-- Index of the first occurrence of `x` in `l` (`l.length` when absent,
but only used for members). -/
def idxIn (l : List Nat) (x : Nat) : Nat :=
  match l with
  | [] => 0
  | y :: t => if y = x then 0 else idxIn t x + 1

theorem idxIn_lt {l : List Nat} {x : Nat} (h : x ∈ l) : idxIn l x < l.length := by
  induction l with
  | nil => simp at h
  | cons a t ih =>
    by_cases ha : a = x
    · simp [idxIn, ha]
    · have hx : x ∈ t := by
        rcases List.mem_cons.mp h with h1 | h1
        · exact absurd h1.symm ha
        · exact h1
      simp only [idxIn, ha, if_false, List.length_cons]
      have := ih hx
      omega

theorem idxIn_inj {l : List Nat} {a b : Nat} (ha : a ∈ l) (hb : b ∈ l)
    (h : idxIn l a = idxIn l b) : a = b := by
  induction l with
  | nil => simp at ha
  | cons c t ih =>
    by_cases hca : c = a <;> by_cases hcb : c = b
    · rw [← hca, ← hcb]
    · rw [idxIn, idxIn, if_pos hca, if_neg hcb] at h
      omega
    · rw [idxIn, idxIn, if_neg hca, if_pos hcb] at h
      omega
    · rw [idxIn, idxIn, if_neg hca, if_neg hcb] at h
      have ha' : a ∈ t := by
        rcases List.mem_cons.mp ha with h1 | h1
        · exact absurd h1.symm hca
        · exact h1
      have hb' : b ∈ t := by
        rcases List.mem_cons.mp hb with h1 | h1
        · exact absurd h1.symm hcb
        · exact h1
      exact ih ha' hb' (by omega)

theorem idxIn_of_get? {l : List Nat} (hnd : l.Nodup) :
    ∀ {i : Nat} {a : Nat}, l.get? i = some a → idxIn l a = i := by
  induction l with
  | nil => intro i a h; simp [List.get?] at h
  | cons c t ih =>
    intro i a h
    cases i with
    | zero =>
      simp only [List.get?] at h
      rw [idxIn, if_pos (Option.some_inj.mp h)]
    | succ j =>
      simp only [List.get?] at h
      have hat : a ∈ t := List.get?_mem h
      have hca : ¬ c = a := fun he => (List.nodup_cons.mp hnd).1 (he ▸ hat)
      rw [idxIn, if_neg hca, ih (List.nodup_cons.mp hnd).2 h]

/-- Effect of the inner `forEach` of the positioning loop: each member of
the (duplicate-free) group is keyed to its index-based coordinate. -/
theorem enumFold_get (X T : Int) (group : List Nat) :
    ∀ (n : Nat) (pos : List (Nat × Pos)), group.Nodup → ∀ (y : Nat),
      mapGet ((group.enumFrom n).foldl
        (fun pos p => mapSet pos p.2 ⟨X, (p.1 : Int) * (NODE_H + GAP_Y) - T⟩) pos) y =
      if y ∈ group
      then some ⟨X, ((n + idxIn group y : Nat) : Int) * (NODE_H + GAP_Y) - T⟩
      else mapGet pos y := by
  induction group with
  | nil =>
    intro n pos _ y
    simp [List.enumFrom]
  | cons a l ih =>
    intro n pos hnd y
    simp only [List.enumFrom, List.foldl_cons]
    rw [ih (n + 1) _ (List.nodup_cons.mp hnd).2 y]
    by_cases hyl : y ∈ l
    · rw [if_pos hyl, if_pos (List.mem_cons_of_mem _ hyl)]
      have hay : ¬ a = y := fun h => (List.nodup_cons.mp hnd).1 (h ▸ hyl)
      rw [idxIn, if_neg hay]
      have harith : n + 1 + idxIn l y = n + (idxIn l y + 1) := by omega
      rw [harith]
    · rw [if_neg hyl]
      by_cases hya : y = a
      · rw [if_pos (by rw [hya]; exact List.mem_cons_self _ _)]
        rw [hya, mapGet_mapSet_self]
        rw [idxIn, if_pos rfl]
        norm_num
      · rw [if_neg (fun h => (List.mem_cons.mp h).elim hya hyl),
          mapGet_mapSet_ne _ _ _ _ (Ne.symm (fun h => hya h.symm))]

/-- The body of the outer positioning loop, named for induction. -/
def placeStep (g : List (Nat × List Nat)) (pos : List (Nat × Pos)) (lvl : Nat) :
    List (Nat × Pos) :=
  let group := (mapGet g lvl).getD []
  let totalH : Int := (group.length : Int) * (NODE_H + GAP_Y) - GAP_Y
  group.enum.foldl
    (fun pos p =>
      mapSet pos p.2
        ⟨(lvl : Int) * (NODE_W + GAP_X),
         (p.1 : Int) * (NODE_H + GAP_Y) - totalH / 2⟩)
    pos

theorem placeGroups_eq_fold (g : List (Nat × List Nat)) :
    placeGroups g = (List.range (maxLevelOf g + 1)).foldl (placeStep g) [] := rfl

/-- The position a grouped identifier receives, given that the groups map
is the level-partition of a duplicate-free list `Q` by a level function. -/
theorem placeFold_get (g : List (Nat × List Nat)) (Q : List Nat) (LV : Nat → Nat)
    (hg : ∀ l, (mapGet g l).getD [] = Q.filter (fun u => decide (LV u = l)))
    (hQnd : Q.Nodup) :
    ∀ (N : Nat) (pos0 : List (Nat × Pos)) (y : Nat),
      mapGet ((List.range N).foldl (placeStep g) pos0) y =
      if y ∈ Q ∧ LV y < N
      then some ⟨(LV y : Int) * (NODE_W + GAP_X),
        (idxIn (Q.filter (fun u => decide (LV u = LV y))) y : Int) * (NODE_H + GAP_Y) -
          (((Q.filter (fun u => decide (LV u = LV y))).length : Int) *
            (NODE_H + GAP_Y) - GAP_Y) / 2⟩
      else mapGet pos0 y := by
  intro N
  induction N with
  | zero =>
    intro pos0 y
    simp
  | succ N ih =>
    intro pos0 y
    rw [List.range_succ, List.foldl_append, List.foldl_cons, List.foldl_nil]
    have hgrpnd : ((mapGet g N).getD []).Nodup := by
      rw [hg N]
      exact hQnd.filter _
    have hunf : placeStep g ((List.range N).foldl (placeStep g) pos0) N =
        (((mapGet g N).getD []).enumFrom 0).foldl
          (fun pos p => mapSet pos p.2
            ⟨(N : Int) * (NODE_W + GAP_X),
             (p.1 : Int) * (NODE_H + GAP_Y) -
               ((((mapGet g N).getD []).length : Int) * (NODE_H + GAP_Y) - GAP_Y) / 2⟩)
          ((List.range N).foldl (placeStep g) pos0) := rfl
    rw [hunf, enumFold_get _ _ _ 0 _ hgrpnd y]
    by_cases hy : y ∈ Q
    · by_cases hN : LV y = N
      · have hyg : y ∈ (mapGet g N).getD [] := by
          rw [hg N]
          exact List.mem_filter.mpr ⟨hy, by simp [hN]⟩
        rw [if_pos hyg, if_pos ⟨hy, by omega⟩]
        rw [hg N, ← hN]
        norm_num
      · have hyg : y ∉ (mapGet g N).getD [] := by
          rw [hg N]
          intro hmem
          exact hN (by simpa using (List.mem_filter.mp hmem).2)
        rw [if_neg hyg, ih pos0 y]
        by_cases hlt : LV y < N
        · rw [if_pos ⟨hy, hlt⟩, if_pos ⟨hy, by omega⟩]
        · rw [if_neg (fun h => hlt h.2), if_neg (fun h => absurd h.2 (by omega))]
    · have hyg : y ∉ (mapGet g N).getD [] := by
        rw [hg N]
        intro hm
        exact hy (List.mem_filter.mp hm).1
      rw [if_neg hyg, ih pos0 y, if_neg (fun h => hy h.1), if_neg (fun h => hy h.1)]

theorem maxLevelOf_eq_natMax (g : List (Nat × List Nat)) :
    maxLevelOf g = natMax (keysOf g) := rfl

theorem key_le_maxLevelOf {g : List (Nat × List Nat)} {k : Nat} (h : k ∈ keysOf g) :
    k ≤ maxLevelOf g := by
  rw [maxLevelOf_eq_natMax]
  exact le_natMax_of_mem h

/-- Complete description of the group-phase position map. -/
theorem placeGroups_get (g : List (Nat × List Nat)) (Q : List Nat) (LV : Nat → Nat)
    (hg : ∀ l, (mapGet g l).getD [] = Q.filter (fun u => decide (LV u = l)))
    (hQnd : Q.Nodup) (y : Nat) :
    mapGet (placeGroups g) y =
      if y ∈ Q
      then some ⟨(LV y : Int) * (NODE_W + GAP_X),
        (idxIn (Q.filter (fun u => decide (LV u = LV y))) y : Int) * (NODE_H + GAP_Y) -
          (((Q.filter (fun u => decide (LV u = LV y))).length : Int) *
            (NODE_H + GAP_Y) - GAP_Y) / 2⟩
      else none := by
  rw [placeGroups_eq_fold, placeFold_get g Q LV hg hQnd (maxLevelOf g + 1) [] y]
  by_cases hy : y ∈ Q
  · have hmem : y ∈ (mapGet g (LV y)).getD [] := by
      rw [hg (LV y)]
      exact List.mem_filter.mpr ⟨hy, by simp⟩
    have hkey : LV y ∈ keysOf g := by
      by_contra hk
      rw [← mapGet_eq_none_iff] at hk
      rw [hk] at hmem
      simp at hmem
    have hle := key_le_maxLevelOf hkey
    rw [if_pos ⟨hy, by omega⟩, if_pos hy]
  · rw [if_neg (fun h => hy h.1), if_neg hy]
    rfl

/-! ### Characterization of the fallback phase -/

/-- The identifiers the fallback loop will place, in input order: the step
ids not already present (`present` tracks the position map's keys). -/
def fbOrder : List StepNode → List Nat → List Nat
  | [], _ => []
  | s :: ss, present =>
    if s.id ∈ present then fbOrder ss present
    else s.id :: fbOrder ss (s.id :: present)

theorem fbOrder_congr (ss : List StepNode) :
    ∀ (p1 p2 : List Nat), (∀ z, z ∈ p1 ↔ z ∈ p2) → fbOrder ss p1 = fbOrder ss p2 := by
  induction ss with
  | nil => intro p1 p2 _; rfl
  | cons s ss ih =>
    intro p1 p2 h
    rw [fbOrder, fbOrder]
    by_cases hs : s.id ∈ p1
    · rw [if_pos hs, if_pos ((h s.id).mp hs), ih p1 p2 h]
    · rw [if_neg hs, if_neg (fun hz => hs ((h s.id).mpr hz))]
      rw [ih (s.id :: p1) (s.id :: p2) (fun z => by
        simp only [List.mem_cons]
        exact or_congr Iff.rfl (h z))]

theorem fbOrder_not_present (ss : List StepNode) :
    ∀ (p : List Nat) (x : Nat), x ∈ fbOrder ss p → x ∉ p := by
  induction ss with
  | nil => intro p x h; simp [fbOrder] at h
  | cons s ss ih =>
    intro p x h
    rw [fbOrder] at h
    by_cases hs : s.id ∈ p
    · rw [if_pos hs] at h
      exact ih p x h
    · rw [if_neg hs] at h
      rcases List.mem_cons.mp h with h1 | h1
      · rw [h1]; exact hs
      · intro hp
        exact ih _ x h1 (List.mem_cons_of_mem _ hp)

theorem fbOrder_nodup (ss : List StepNode) : ∀ (p : List Nat), (fbOrder ss p).Nodup := by
  induction ss with
  | nil => intro p; simp [fbOrder]
  | cons s ss ih =>
    intro p
    rw [fbOrder]
    by_cases hs : s.id ∈ p
    · rw [if_pos hs]; exact ih p
    · rw [if_neg hs]
      refine List.nodup_cons.mpr ⟨?_, ih _⟩
      intro hmem
      exact fbOrder_not_present ss _ _ hmem (List.mem_cons_self _ _)

theorem mem_fbOrder_iff (ss : List StepNode) :
    ∀ (p : List Nat) (y : Nat), y ∈ fbOrder ss p ↔ y ∈ stepIds ss ∧ y ∉ p := by
  induction ss with
  | nil => intro p y; simp [fbOrder, stepIds]
  | cons s ss ih =>
    intro p y
    have hcons : y ∈ stepIds (s :: ss) ↔ y = s.id ∨ y ∈ stepIds ss := by
      simp [stepIds]
    rw [fbOrder]
    by_cases hs : s.id ∈ p
    · rw [if_pos hs, ih p y, hcons]
      constructor
      · rintro ⟨h1, h2⟩
        exact ⟨Or.inr h1, h2⟩
      · rintro ⟨h1 | h1, h2⟩
        · exact absurd (h1 ▸ hs) h2
        · exact ⟨h1, h2⟩
    · rw [if_neg hs, hcons]
      constructor
      · intro h
        rcases List.mem_cons.mp h with h1 | h1
        · exact ⟨Or.inl h1, h1 ▸ hs⟩
        · obtain ⟨h2, h3⟩ := (ih _ y).mp h1
          exact ⟨Or.inr h2, fun hp => h3 (List.mem_cons_of_mem _ hp)⟩
      · rintro ⟨h1 | h1, h2⟩
        · exact h1 ▸ List.mem_cons_self _ _
        · by_cases hy : y = s.id
          · exact hy ▸ List.mem_cons_self _ _
          · exact List.mem_cons_of_mem _ ((ih _ y).mpr
              ⟨h1, fun hp => (List.mem_cons.mp hp).elim hy h2⟩)

/-- Complete description of the fallback fold. -/
theorem fbFold_get (maxLevel : Nat) :
    ∀ (steps : List StepNode) (m : List (Nat × Pos)) (n : Nat) (y : Nat),
      mapGet ((steps.foldl
        (fun (acc : List (Nat × Pos) × Nat) s =>
          if (mapGet acc.1 s.id).isSome then acc
          else
            (mapSet acc.1 s.id ⟨((maxLevel + 1 + acc.2 : Nat) : Int) * (NODE_W + GAP_X), 0⟩,
             acc.2 + 1))
        (m, n)).1) y =
      if y ∈ fbOrder steps (keysOf m)
      then some ⟨((maxLevel + 1 + (n + idxIn (fbOrder steps (keysOf m)) y) : Nat) : Int) *
        (NODE_W + GAP_X), 0⟩
      else mapGet m y := by
  intro steps
  induction steps with
  | nil =>
    intro m n y
    simp [fbOrder]
  | cons s ss ih =>
    intro m n y
    rw [List.foldl_cons, fbOrder]
    by_cases hs : s.id ∈ keysOf m
    · have hsome : (mapGet m s.id).isSome := (mapGet_isSome_iff m s.id).mpr hs
      rw [if_pos hs]
      simp only [hsome, if_true]
      exact ih m n y
    · have hsome : ¬ (mapGet m s.id).isSome := fun h => hs ((mapGet_isSome_iff m s.id).mp h)
      rw [if_neg hs]
      simp only [hsome, if_false, Bool.false_eq_true]
      rw [ih (mapSet m s.id ⟨((maxLevel + 1 + n : Nat) : Int) * (NODE_W + GAP_X), 0⟩) (n + 1) y]
      have hknew : keysOf (mapSet m s.id
          ⟨((maxLevel + 1 + n : Nat) : Int) * (NODE_W + GAP_X), 0⟩) = keysOf m ++ [s.id] :=
        keysOf_mapSet_new m s.id _ hs
      have hcongr : fbOrder ss (keysOf (mapSet m s.id
          ⟨((maxLevel + 1 + n : Nat) : Int) * (NODE_W + GAP_X), 0⟩)) =
          fbOrder ss (s.id :: keysOf m) := by
        rw [hknew]
        exact fbOrder_congr ss _ _ (fun z => by
          simp [List.mem_append, List.mem_cons]
          tauto)
      rw [hcongr]
      by_cases hy : y ∈ fbOrder ss (s.id :: keysOf m)
      · have hys : y ≠ s.id := fun he =>
          fbOrder_not_present ss _ y hy (he ▸ List.mem_cons_self _ _)
        rw [if_pos hy, if_pos (List.mem_cons_of_mem _ hy)]
        rw [idxIn, if_neg (Ne.symm hys)]
        have harith : maxLevel + 1 + (n + 1 + idxIn (fbOrder ss (s.id :: keysOf m)) y) =
            maxLevel + 1 + (n + (idxIn (fbOrder ss (s.id :: keysOf m)) y + 1)) := by omega
        rw [harith]
      · rw [if_neg hy]
        by_cases hyid : y = s.id
        · subst hyid
          rw [if_pos (List.mem_cons_self _ _), mapGet_mapSet_self]
          rw [idxIn, if_pos rfl]
          norm_num
        · rw [if_neg (fun h => (List.mem_cons.mp h).elim hyid hy),
            mapGet_mapSet_ne _ _ _ _ hyid]

/-- Specialization to `addFallback` as used by `buildLayout`. -/
theorem addFallback_get (steps : List StepNode) (maxLevel : Nat)
    (pos : List (Nat × Pos)) (y : Nat) :
    mapGet (addFallback steps maxLevel pos) y =
      if y ∈ fbOrder steps (keysOf pos)
      then some ⟨((maxLevel + 1 + idxIn (fbOrder steps (keysOf pos)) y : Nat) : Int) *
        (NODE_W + GAP_X), 0⟩
      else mapGet pos y := by
  rw [addFallback, fbFold_get maxLevel steps pos 0 y]
  by_cases hy : y ∈ fbOrder steps (keysOf pos)
  · rw [if_pos hy, if_pos hy]
    norm_num
  · rw [if_neg hy, if_neg hy]

/-! ### Final-state corollaries and the layout characterization -/

theorem final_inv (steps : List StepNode) (deps : List DependencyEdge) :
    LoopInv steps deps (kahnState steps deps) := (kahn_final steps deps).1

theorem final_nodup (steps : List StepNode) (deps : List DependencyEdge) :
    (kahnState steps deps).queue.Nodup := (final_inv steps deps).nodup

/-- Every edge into a dequeued identifier comes from a dequeued, real node. -/
theorem final_edge_sources {steps : List StepNode} {deps : List DependencyEdge} {x : Nat}
    (hx : x ∈ (kahnState steps deps).queue) :
    ∀ d ∈ deps, d.target_step_id = x →
      d.source_step_id ∈ (kahnState steps deps).queue ∧ d.source_step_id ∈ stepIds steps := by
  intro d hd ht
  have h := inv_edge_sources (final_inv steps deps) hx d hd ht
  rw [processedOf_final (kahn_final steps deps).2] at h
  exact h

/-- The final level of any identifier is the max of `level(u) + 1` over the
dequeued nodes `u` with an edge to it (0 when there are none). -/
theorem final_level_eq (steps : List StepNode) (deps : List DependencyEdge) (x : Nat) :
    levelOfFn steps deps x =
      natMax (contribList steps deps (kahnState steps deps).queue
        (kahnState steps deps).level x) := by
  have h := (final_inv steps deps).level_eq x
  rw [processedOf_final (kahn_final steps deps).2] at h
  exact h

/-- The final groups map partitions the dequeued identifiers by level. -/
theorem final_groups_eq (steps : List StepNode) (deps : List DependencyEdge) (lvl : Nat) :
    (mapGet (kahnState steps deps).groups lvl).getD [] =
      (kahnState steps deps).queue.filter
        (fun u => decide (levelOfFn steps deps u = lvl)) := by
  have h := (final_inv steps deps).groups_eq lvl
  rw [processedOf_final (kahn_final steps deps).2] at h
  exact h

/-- Along any edge between dequeued nodes (with a real source), the level
strictly increases. -/
theorem final_level_edge {steps : List StepNode} {deps : List DependencyEdge} {u v : Nat}
    (hu : u ∈ (kahnState steps deps).queue)
    (hedge : v ∈ (mapGet (adjOutOf steps deps) u).getD []) :
    levelOfFn steps deps u + 1 ≤ levelOfFn steps deps v := by
  rw [final_level_eq steps deps v]
  apply le_natMax_of_mem
  rw [contribList]
  rw [List.mem_filterMap]
  refine ⟨u, hu, ?_⟩
  rw [if_pos hedge]
  rfl

theorem edge_mem_adj {steps : List StepNode} {deps : List DependencyEdge}
    {d : DependencyEdge} (hd : d ∈ deps) (hu : d.source_step_id ∈ stepIds steps) :
    d.target_step_id ∈ (mapGet (adjOutOf steps deps) d.source_step_id).getD [] := by
  rw [adjOutOf_get, if_pos hu]
  simp only [Option.getD_some, outTargets, List.mem_map]
  exact ⟨d, List.mem_filter.mpr ⟨hd, by simp⟩, rfl⟩

theorem adj_mem_edge {steps : List StepNode} {deps : List DependencyEdge} {u v : Nat}
    (h : v ∈ (mapGet (adjOutOf steps deps) u).getD []) :
    u ∈ stepIds steps ∧ ∃ d ∈ deps, d.source_step_id = u ∧ d.target_step_id = v := by
  rw [adjOutOf_get] at h
  by_cases hids : u ∈ stepIds steps
  · rw [if_pos hids] at h
    simp only [Option.getD_some, outTargets, List.mem_map] at h
    obtain ⟨d, hd, ht⟩ := h
    have hdf := List.mem_filter.mp hd
    exact ⟨hids, d, hdf.1, by simpa using hdf.2, ht⟩
  · rw [if_neg hids] at h
    simp at h

/-- The same-level bucket of an identifier in the final state. -/
def levelGroupOf (steps : List StepNode) (deps : List DependencyEdge) (y : Nat) : List Nat :=
  (kahnState steps deps).queue.filter
    (fun u => decide (levelOfFn steps deps u = levelOfFn steps deps y))

/-- The position assigned to a dequeued identifier. -/
def groupPos (steps : List StepNode) (deps : List DependencyEdge) (y : Nat) : Pos :=
  ⟨(levelOfFn steps deps y : Int) * (NODE_W + GAP_X),
   (idxIn (levelGroupOf steps deps y) y : Int) * (NODE_H + GAP_Y) -
     (((levelGroupOf steps deps y).length : Int) * (NODE_H + GAP_Y) - GAP_Y) / 2⟩

/-- The fallback order used by `buildLayout`. -/
def fbList (steps : List StepNode) (deps : List DependencyEdge) : List Nat :=
  fbOrder steps (keysOf (placeGroups (kahnState steps deps).groups))

/-- The group-phase position map of `buildLayout`. -/
theorem placeGroups_final_get (steps : List StepNode) (deps : List DependencyEdge) (y : Nat) :
    mapGet (placeGroups (kahnState steps deps).groups) y =
      if y ∈ (kahnState steps deps).queue then some (groupPos steps deps y) else none :=
  placeGroups_get (kahnState steps deps).groups (kahnState steps deps).queue
    (levelOfFn steps deps) (fun l => final_groups_eq steps deps l)
    (final_nodup steps deps) y

/-- Complete description of the returned position map: dequeued ids get
their group position, remaining step ids get a fallback column, nothing
else is present. -/
theorem buildLayout_get (steps : List StepNode) (deps : List DependencyEdge) (y : Nat) :
    mapGet (buildLayout steps deps) y =
      if y ∈ (kahnState steps deps).queue then some (groupPos steps deps y)
      else if y ∈ fbList steps deps
      then some ⟨((maxLevelOf (kahnState steps deps).groups + 1 +
        idxIn (fbList steps deps) y : Nat) : Int) * (NODE_W + GAP_X), 0⟩
      else none := by
  have hb : buildLayout steps deps =
      addFallback steps (maxLevelOf (kahnState steps deps).groups)
        (placeGroups (kahnState steps deps).groups) := rfl
  rw [hb, addFallback_get]
  by_cases hq : y ∈ (kahnState steps deps).queue
  · have hpg : mapGet (placeGroups (kahnState steps deps).groups) y =
        some (groupPos steps deps y) := by
      rw [placeGroups_final_get, if_pos hq]
    have hkey : y ∈ keysOf (placeGroups (kahnState steps deps).groups) := by
      rw [← mapGet_isSome_iff, hpg]
      rfl
    have hnfb : y ∉ fbOrder steps (keysOf (placeGroups (kahnState steps deps).groups)) :=
      fun h => fbOrder_not_present steps _ y h hkey
    rw [if_neg hnfb, hpg, if_pos hq]
  · have hpg : mapGet (placeGroups (kahnState steps deps).groups) y = none := by
      rw [placeGroups_final_get, if_neg hq]
    rw [if_neg hq]
    by_cases hfb : y ∈ fbList steps deps
    · rw [if_pos (show y ∈ fbOrder steps
          (keysOf (placeGroups (kahnState steps deps).groups)) from hfb), if_pos hfb]
      rfl
    · rw [if_neg (show ¬ y ∈ fbOrder steps
          (keysOf (placeGroups (kahnState steps deps).groups)) from hfb), if_neg hfb, hpg]

/-- Fallback membership: exactly the input ids that the main loop did not
dequeue. -/
theorem mem_fbList_iff (steps : List StepNode) (deps : List DependencyEdge) (y : Nat) :
    y ∈ fbList steps deps ↔ y ∈ stepIds steps ∧ y ∉ (kahnState steps deps).queue := by
  rw [fbList, mem_fbOrder_iff]
  constructor
  · rintro ⟨h1, h2⟩
    refine ⟨h1, fun hq => h2 ?_⟩
    rw [← mapGet_isSome_iff, placeGroups_final_get, if_pos hq]
    rfl
  · rintro ⟨h1, h2⟩
    refine ⟨h1, fun hk => ?_⟩
    rw [← mapGet_isSome_iff, placeGroups_final_get, if_neg h2] at hk
    simp at hk

theorem nodup_keysOf_foldl {α γ : Type} (l : List γ) (F : List (Nat × α) → γ → List (Nat × α))
    (hF : ∀ m c, (keysOf m).Nodup → (keysOf (F m c)).Nodup) :
    ∀ (m : List (Nat × α)), (keysOf m).Nodup → (keysOf (l.foldl F m)).Nodup := by
  induction l with
  | nil => intro m hm; exact hm
  | cons c l ih =>
    intro m hm
    rw [List.foldl_cons]
    exact ih _ (hF m c hm)

theorem nodup_keysOf_placeGroups (g : List (Nat × List Nat)) :
    (keysOf (placeGroups g)).Nodup := by
  rw [placeGroups_eq_fold]
  apply nodup_keysOf_foldl _ _ _ _ (by simp [keysOf])
  intro m lvl hm
  have hps : placeStep g m lvl =
      (((mapGet g lvl).getD []).enum).foldl
        (fun pos p => mapSet pos p.2
          ⟨(lvl : Int) * (NODE_W + GAP_X),
           (p.1 : Int) * (NODE_H + GAP_Y) -
             ((((mapGet g lvl).getD []).length : Int) * (NODE_H + GAP_Y) - GAP_Y) / 2⟩) m :=
    rfl
  rw [hps]
  apply nodup_keysOf_foldl _ _ _ _ hm
  intro m' p hm'
  exact nodup_keysOf_mapSet _ _ _ hm'

theorem nodup_keysOf_fbFold (maxLevel : Nat) :
    ∀ (steps : List StepNode) (m : List (Nat × Pos)) (n : Nat), (keysOf m).Nodup →
      (keysOf ((steps.foldl
        (fun (acc : List (Nat × Pos) × Nat) s =>
          if (mapGet acc.1 s.id).isSome then acc
          else
            (mapSet acc.1 s.id ⟨((maxLevel + 1 + acc.2 : Nat) : Int) * (NODE_W + GAP_X), 0⟩,
             acc.2 + 1))
        (m, n)).1)).Nodup := by
  intro steps
  induction steps with
  | nil => intro m n hm; exact hm
  | cons s ss ih =>
    intro m n hm
    rw [List.foldl_cons]
    by_cases hs : (mapGet m s.id).isSome
    · simp only [hs, if_true]
      exact ih m n hm
    · simp only [hs, if_false, Bool.false_eq_true]
      exact ih _ _ (nodup_keysOf_mapSet _ _ _ hm)

/-- The returned position map never holds two entries with the same key. -/
theorem nodup_keysOf_buildLayout (steps : List StepNode) (deps : List DependencyEdge) :
    (keysOf (buildLayout steps deps)).Nodup := by
  have hb : buildLayout steps deps =
      (steps.foldl
        (fun (acc : List (Nat × Pos) × Nat) s =>
          if (mapGet acc.1 s.id).isSome then acc
          else
            (mapSet acc.1 s.id
              ⟨((maxLevelOf (kahnState steps deps).groups + 1 + acc.2 : Nat) : Int) *
                (NODE_W + GAP_X), 0⟩,
             acc.2 + 1))
        (placeGroups (kahnState steps deps).groups, 0)).1 := rfl
  rw [hb]
  exact nodup_keysOf_fbFold _ steps _ 0
    (nodup_keysOf_placeGroups (kahnState steps deps).groups)

theorem runLoop_stuck (adj : List (Nat × List Nat)) (fuel : Nat) (st : LState)
    (h : ¬ st.head < st.queue.length) : runLoop adj fuel st = st := by
  cases fuel with
  | zero => rfl
  | succ n => rw [runLoop, if_neg h]

/-- With no input nodes nothing is ever seeded: every in-degree entry
belongs to an edge target and is positive. -/
theorem kahnState_no_nodes (deps : List DependencyEdge) :
    kahnState [] deps = ⟨[], 0, [], [], inDegOf [] deps⟩ := by
  have hq : ((inDegOf [] deps).filter (fun p => p.2 = 0)).map (·.1) = [] := by
    have hf : (inDegOf [] deps).filter (fun p => p.2 = 0) = [] := by
      rw [List.filter_eq_nil_iff]
      intro p hp
      have hm : mapGet (inDegOf [] deps) p.1 = some p.2 :=
        mapGet_of_mem_nodup _ _ _ (nodup_keysOf_inDegOf [] deps) hp
      rw [inDegOf_get] at hm
      by_cases hc : p.1 ∈ stepIds ([] : List StepNode) ∨ tgtCount deps p.1 ≠ 0
      · rw [if_pos hc] at hm
        have hc2 : tgtCount deps p.1 ≠ 0 := by
          rcases hc with hc | hc
          · simp [stepIds] at hc
          · exact hc
        have : p.2 = (tgtCount deps p.1 : Int) := (Option.some_inj.mp hm).symm
        simp only [decide_eq_true_eq, this]
        intro habs
        exact hc2 (by exact_mod_cast habs)
      · rw [if_neg hc] at hm
        simp at hm
    rw [hf]
    rfl
  have hk : kahnState [] deps =
      runLoop (adjOutOf [] deps) (inDegOf [] deps).length
        ⟨((inDegOf [] deps).filter (fun p => p.2 = 0)).map (·.1), 0, [], [],
         inDegOf [] deps⟩ := rfl
  rw [hk, hq]
  exact runLoop_stuck _ _ _ (by simp)

/-- Empty node list: the returned position map is empty. -/
theorem buildLayout_no_nodes (deps : List DependencyEdge) : buildLayout [] deps = [] := by
  have hb : buildLayout [] deps =
      addFallback [] (maxLevelOf (kahnState [] deps).groups)
        (placeGroups (kahnState [] deps).groups) := rfl
  rw [hb, kahnState_no_nodes]
  rfl

/-! ### Claim-level helpers -/

theorem mem_stepIds {steps : List StepNode} {s : StepNode} (h : s ∈ steps) :
    s.id ∈ stepIds steps := List.mem_map_of_mem _ h

theorem get?_idxIn {l : List Nat} {x : Nat} (h : x ∈ l) : l.get? (idxIn l x) = some x := by
  induction l with
  | nil => simp at h
  | cons a t ih =>
    by_cases ha : a = x
    · rw [idxIn, if_pos ha, ha]
      rfl
    · have hx : x ∈ t := by
        rcases List.mem_cons.mp h with h1 | h1
        · exact absurd h1.symm ha
        · exact h1
      rw [idxIn, if_neg ha]
      exact ih hx

/-- Any dequeued identifier's level is covered by the positioning loop. -/
theorem final_level_le_max {steps : List StepNode} {deps : List DependencyEdge} {t : Nat}
    (ht : t ∈ (kahnState steps deps).queue) :
    levelOfFn steps deps t ≤ maxLevelOf (kahnState steps deps).groups := by
  have hmem : t ∈ (mapGet (kahnState steps deps).groups (levelOfFn steps deps t)).getD [] := by
    rw [final_groups_eq]
    exact List.mem_filter.mpr ⟨ht, by simp⟩
  have hkey : levelOfFn steps deps t ∈ keysOf (kahnState steps deps).groups := by
    by_contra hk
    rw [← mapGet_eq_none_iff] at hk
    rw [hk] at hmem
    simp at hmem
  exact key_le_maxLevelOf hkey

theorem mul_gap {i j k : Int} (hne : i ≠ j) (hk : 0 ≤ k) : k ≤ |i * k - j * k| := by
  have h1 : (1 : Int) ≤ |i - j| := Int.one_le_abs (sub_ne_zero.mpr hne)
  calc k = 1 * k := (one_mul k).symm
    _ ≤ |i - j| * k := mul_le_mul_of_nonneg_right h1 hk
    _ = |i - j| * |k| := by rw [abs_of_nonneg hk]
    _ = |(i - j) * k| := (abs_mul _ _).symm
    _ = |i * k - j * k| := by ring_nf

/-- Every input node ends up with a position (group phase or fallback). -/
theorem buildLayout_complete (steps : List StepNode) (deps : List DependencyEdge) :
    ∀ s ∈ steps, (mapGet (buildLayout steps deps) s.id).isSome := by
  intro s hs
  rw [buildLayout_get]
  by_cases hq : s.id ∈ (kahnState steps deps).queue
  · rw [if_pos hq]
    rfl
  · rw [if_neg hq, if_pos ((mem_fbList_iff steps deps s.id).mpr ⟨mem_stepIds hs, hq⟩)]
    rfl

/-- A path in the edge set restricted to real endpoints: `RPath u v n` means
a walk of `n` edges from `u` to `v`, every edge of which is an input edge
with both endpoints in the input node list. -/
inductive RPath (steps : List StepNode) (deps : List DependencyEdge) : Nat → Nat → Nat → Prop
  | refl (u : Nat) : RPath steps deps u u 0
  | snoc {u v w : Nat} {n : Nat} : RPath steps deps u v n →
      (⟨v, w⟩ : DependencyEdge) ∈ deps → v ∈ stepIds steps → w ∈ stepIds steps →
      RPath steps deps u w (n + 1)

/-- In-degree over the edge set restricted to edges with both endpoints in
the node list (the spec's notion, not the code's). -/
def restrictedInDeg (steps : List StepNode) (deps : List DependencyEdge) (x : Nat) : Nat :=
  (deps.filter (fun d => decide (d.target_step_id = x ∧
    d.source_step_id ∈ stepIds steps ∧ d.target_step_id ∈ stepIds steps))).length

/-- Reachability along restricted edges. -/
def Reachable (steps : List StepNode) (deps : List DependencyEdge) (s v : Nat) : Prop :=
  ∃ n, RPath steps deps s v n

/-- Along a restricted path ending at a dequeued node, the level grows at
least by one per edge. -/
theorem rpath_level_le {steps : List StepNode} {deps : List DependencyEdge} :
    ∀ {u v n}, RPath steps deps u v n → v ∈ (kahnState steps deps).queue →
      n + levelOfFn steps deps u ≤ levelOfFn steps deps v := by
  intro u v n hp
  induction hp with
  | refl =>
    intro _
    omega
  | snoc hp hedge hvids hwids ih =>
    rename_i v1 w1 n1
    intro hwq
    have hsrc := final_edge_sources hwq ⟨v1, w1⟩ hedge rfl
    have hsrc1 : v1 ∈ (kahnState steps deps).queue := hsrc.1
    have hadj : w1 ∈ (mapGet (adjOutOf steps deps) v1).getD [] :=
      edge_mem_adj hedge hvids
    have hlev := final_level_edge hsrc1 hadj
    have hih := ih hsrc1
    omega

/-- Existence of a maximal path: a dequeued real node is reached from some
restricted-in-degree-0 source by a path of length exactly its level. -/
theorem exists_source_path {steps : List StepNode} {deps : List DependencyEdge} :
    ∀ (k : Nat) (v : Nat), v ∈ stepIds steps → v ∈ (kahnState steps deps).queue →
      levelOfFn steps deps v = k →
      ∃ s, s ∈ stepIds steps ∧ restrictedInDeg steps deps s = 0 ∧
        RPath steps deps s v k := by
  intro k
  induction k using Nat.strong_induction_on with
  | _ k ih =>
    intro v hv hq hlev
    cases k with
    | zero =>
      refine ⟨v, hv, ?_, hlev ▸ RPath.refl v⟩
      rw [restrictedInDeg, List.length_eq_zero, List.filter_eq_nil_iff]
      intro d hd
      simp only [decide_eq_true_eq]
      rintro ⟨htgt, hsrcids, _⟩
      have hsq := final_edge_sources hq d hd htgt
      have hadj : d.target_step_id ∈
          (mapGet (adjOutOf steps deps) d.source_step_id).getD [] :=
        edge_mem_adj hd hsq.2
      rw [htgt] at hadj
      have hgt := final_level_edge hsq.1 hadj
      omega
    | succ k' =>
      have hmax : natMax (contribList steps deps (kahnState steps deps).queue
          (kahnState steps deps).level v) = k' + 1 := by
        rw [← final_level_eq]
        exact hlev
      have hmem : (k' + 1) ∈ contribList steps deps (kahnState steps deps).queue
          (kahnState steps deps).level v := by
        rw [← hmax]
        exact natMax_mem (by omega)
      rw [contribList, List.mem_filterMap] at hmem
      obtain ⟨u, huq, hif⟩ := hmem
      have hadj : v ∈ (mapGet (adjOutOf steps deps) u).getD [] := by
        by_contra hn
        rw [if_neg hn] at hif
        exact absurd hif (by simp)
      rw [if_pos hadj] at hif
      have hulev : levelOfFn steps deps u = k' := by
        have h2 : levelOfFn steps deps u + 1 = k' + 1 := Option.some_inj.mp hif
        omega
      obtain ⟨huids, d, hd, hds, hdt⟩ := adj_mem_edge hadj
      obtain ⟨s, hs1, hs2, hpath⟩ := ih k' (by omega) u huids huq hulev
      have hedge : (⟨u, v⟩ : DependencyEdge) ∈ deps := by
        have hdv : d = (⟨u, v⟩ : DependencyEdge) := by
          cases d
          simp only at hds hdt
          rw [hds, hdt]
        rw [← hdv]
        exact hd
      exact ⟨s, hs1, hs2, RPath.snoc hpath hedge huids hv⟩

/-! ### The claims -/

/-- C1: for every input node list and edge list (including empty node
lists, cyclic edge sets, and edges referencing non-existent nodes),
`buildLayout` returns a position map with exactly one entry for each node
of the input node list (the key is present, and no key is duplicated);
in particular an empty node list yields an empty map. -/
theorem claim_C1 (steps : List StepNode) (deps : List DependencyEdge) :
    (∀ s ∈ steps, (mapGet (buildLayout steps deps) s.id).isSome) ∧
    (keysOf (buildLayout steps deps)).Nodup ∧
    buildLayout [] deps = [] :=
  ⟨buildLayout_complete steps deps, nodup_keysOf_buildLayout steps deps,
   buildLayout_no_nodes deps⟩

theorem claim_C1_witness :
    (mapGet (buildLayout [⟨5⟩] [⟨5, 7⟩]) 5).isSome = true :=
  (claim_C1 [⟨5⟩] [⟨5, 7⟩]).1 ⟨5⟩ (by simp)

/-- C4: `buildLayout` terminates on every input, cyclic graphs included:
the Kahn-style loop reaches its exit condition (`head` catches up with the
queue length, so running it further changes nothing), every identifier is
enqueued at most once, and every input node still receives a position. -/
theorem claim_C4 (steps : List StepNode) (deps : List DependencyEdge) :
    (kahnState steps deps).head = (kahnState steps deps).queue.length ∧
    (kahnState steps deps).queue.Nodup ∧
    (∀ fuel, runLoop (adjOutOf steps deps) fuel (kahnState steps deps) =
      kahnState steps deps) ∧
    (∀ s ∈ steps, (mapGet (buildLayout steps deps) s.id).isSome) := by
  refine ⟨(kahn_final steps deps).2, final_nodup steps deps, ?_, buildLayout_complete steps deps⟩
  intro fuel
  apply runLoop_stuck
  have := (kahn_final steps deps).2
  omega

theorem claim_C4_witness :
    (kahnState [⟨1⟩, ⟨2⟩] [⟨1, 2⟩, ⟨2, 1⟩]).head =
      (kahnState [⟨1⟩, ⟨2⟩] [⟨1, 2⟩, ⟨2, 1⟩]).queue.length ∧
    (mapGet (buildLayout [⟨1⟩, ⟨2⟩] [⟨1, 2⟩, ⟨2, 1⟩]) 1).isSome = true ∧
    (mapGet (buildLayout [⟨1⟩, ⟨2⟩] [⟨1, 2⟩, ⟨2, 1⟩]) 2).isSome = true :=
  ⟨(claim_C4 [⟨1⟩, ⟨2⟩] [⟨1, 2⟩, ⟨2, 1⟩]).1,
   (claim_C4 [⟨1⟩, ⟨2⟩] [⟨1, 2⟩, ⟨2, 1⟩]).2.2.2 ⟨1⟩ (by simp),
   (claim_C4 [⟨1⟩, ⟨2⟩] [⟨1, 2⟩, ⟨2, 1⟩]).2.2.2 ⟨2⟩ (by simp)⟩

/-- C7 counterexample: in the diamond `A=1, B=2, C=3, D=4` with edges
`A→B, A→C, B→D, C→D`, the y-coordinates of `B` and `C` are `-130` and
`30`: they are NOT symmetric about `y = 0` (the occupied band is centered,
the coordinates themselves are not), falsifying the claim's final
conjunct. -/
theorem claim_C7_cex :
    mapGet (buildLayout [⟨1⟩, ⟨2⟩, ⟨3⟩, ⟨4⟩] [⟨1, 2⟩, ⟨1, 3⟩, ⟨2, 4⟩, ⟨3, 4⟩]) 2 =
      some ⟨260, -130⟩ ∧
    mapGet (buildLayout [⟨1⟩, ⟨2⟩, ⟨3⟩, ⟨4⟩] [⟨1, 2⟩, ⟨1, 3⟩, ⟨2, 4⟩, ⟨3, 4⟩]) 3 =
      some ⟨260, 30⟩ ∧
    ¬ ((-130 : Int) = -(30 : Int)) := by
  refine ⟨by decide, by decide, by decide⟩

/-- C7 amended: in the diamond the levels are `A=0, B=C=1, D=2` and the
x-coordinates are `0, W+Gx, W+Gx, 2(W+Gx)` as claimed; `B` and `C` are
vertically separated by exactly `H+Gy`; but instead of the claimed
symmetry of the y-coordinates about 0, it is the occupied vertical band
that is centered: `y(B) = -(y(C) + H)`, with `y(B) = -130, y(C) = 30`. -/
theorem claim_C7_amended :
    levelOfFn [⟨1⟩, ⟨2⟩, ⟨3⟩, ⟨4⟩] [⟨1, 2⟩, ⟨1, 3⟩, ⟨2, 4⟩, ⟨3, 4⟩] 1 = 0 ∧
    levelOfFn [⟨1⟩, ⟨2⟩, ⟨3⟩, ⟨4⟩] [⟨1, 2⟩, ⟨1, 3⟩, ⟨2, 4⟩, ⟨3, 4⟩] 2 = 1 ∧
    levelOfFn [⟨1⟩, ⟨2⟩, ⟨3⟩, ⟨4⟩] [⟨1, 2⟩, ⟨1, 3⟩, ⟨2, 4⟩, ⟨3, 4⟩] 3 = 1 ∧
    levelOfFn [⟨1⟩, ⟨2⟩, ⟨3⟩, ⟨4⟩] [⟨1, 2⟩, ⟨1, 3⟩, ⟨2, 4⟩, ⟨3, 4⟩] 4 = 2 ∧
    mapGet (buildLayout [⟨1⟩, ⟨2⟩, ⟨3⟩, ⟨4⟩] [⟨1, 2⟩, ⟨1, 3⟩, ⟨2, 4⟩, ⟨3, 4⟩]) 1 =
      some ⟨0, -50⟩ ∧
    mapGet (buildLayout [⟨1⟩, ⟨2⟩, ⟨3⟩, ⟨4⟩] [⟨1, 2⟩, ⟨1, 3⟩, ⟨2, 4⟩, ⟨3, 4⟩]) 2 =
      some ⟨NODE_W + GAP_X, -130⟩ ∧
    mapGet (buildLayout [⟨1⟩, ⟨2⟩, ⟨3⟩, ⟨4⟩] [⟨1, 2⟩, ⟨1, 3⟩, ⟨2, 4⟩, ⟨3, 4⟩]) 3 =
      some ⟨NODE_W + GAP_X, 30⟩ ∧
    mapGet (buildLayout [⟨1⟩, ⟨2⟩, ⟨3⟩, ⟨4⟩] [⟨1, 2⟩, ⟨1, 3⟩, ⟨2, 4⟩, ⟨3, 4⟩]) 4 =
      some ⟨2 * (NODE_W + GAP_X), -50⟩ ∧
    (30 : Int) - (-130) = NODE_H + GAP_Y ∧
    (-130 : Int) = -(30 + NODE_H) := by
  refine ⟨by decide, by decide, by decide, by decide, by decide, by decide, by decide,
    by decide, by decide, by decide⟩

/-- C10: with nodes `{1, 3}` and edges `1→2, 1→3` (`2` referencing no
input node), the returned map holds an entry for the non-existent id `2`,
placed in the same level bucket as the real node `3`; its presence shifts
`3`'s y-coordinate (without the dangling edge, `3` sits at `y = -50`
instead of `30`). -/
theorem claim_C10 :
    (2 ∉ stepIds [(⟨1⟩ : StepNode), ⟨3⟩]) ∧
    mapGet (buildLayout [⟨1⟩, ⟨3⟩] [⟨1, 2⟩, ⟨1, 3⟩]) 2 = some ⟨260, -130⟩ ∧
    levelOfFn [⟨1⟩, ⟨3⟩] [⟨1, 2⟩, ⟨1, 3⟩] 2 = levelOfFn [⟨1⟩, ⟨3⟩] [⟨1, 2⟩, ⟨1, 3⟩] 3 ∧
    mapGet (buildLayout [⟨1⟩, ⟨3⟩] [⟨1, 2⟩, ⟨1, 3⟩]) 3 = some ⟨260, 30⟩ ∧
    mapGet (buildLayout [⟨1⟩, ⟨3⟩] [⟨1, 3⟩]) 3 = some ⟨260, -50⟩ := by
  refine ⟨by decide, by decide, by decide, by decide, by decide⟩

/-- C3 counterexample: with nodes `{1, 2}` and edges `9→1, 1→2` (the edge
`9→1` referencing a non-existent source), the malformed edge IS counted in
the in-degree of node `1` (`1` instead of `0`), node `1` is never dequeued
and node `2`'s level changes (`0` instead of `1`), as does its position —
refuting both the exclusion from the in-degree computation and the
level-preservation stated by the claim. -/
theorem claim_C3_cex :
    (9 ∉ stepIds [(⟨1⟩ : StepNode), ⟨2⟩]) ∧
    mapGet (inDegOf [⟨1⟩, ⟨2⟩] [⟨9, 1⟩, ⟨1, 2⟩]) 1 = some 1 ∧
    mapGet (inDegOf [⟨1⟩, ⟨2⟩] [⟨1, 2⟩]) 1 = some 0 ∧
    ¬ (levelOfFn [⟨1⟩, ⟨2⟩] [⟨9, 1⟩, ⟨1, 2⟩] 2 = levelOfFn [⟨1⟩, ⟨2⟩] [⟨1, 2⟩] 2) ∧
    ¬ (mapGet (buildLayout [⟨1⟩, ⟨2⟩] [⟨9, 1⟩, ⟨1, 2⟩]) 2 =
       mapGet (buildLayout [⟨1⟩, ⟨2⟩] [⟨1, 2⟩]) 2) := by
  refine ⟨by decide, by decide, by decide, by decide, by decide⟩

/-- C3 amended: an edge whose source is not in the node list is excluded
from the adjacency-list computation (non-existent sources get no adjacency
entry, and adjacency lists only reflect actual edges), but the in-degree
computation counts EVERY edge targeting a node — malformed or not — so a
malformed edge can change the level assigned to a node. -/
theorem claim_C3_amended (steps : List StepNode) (deps : List DependencyEdge) :
    (∀ u, u ∉ stepIds steps → mapGet (adjOutOf steps deps) u = none) ∧
    (∀ u l, mapGet (adjOutOf steps deps) u = some l →
      ∀ t ∈ l, ∃ d ∈ deps, d.source_step_id = u ∧ d.target_step_id = t) ∧
    (∀ x, x ∈ stepIds steps →
      mapGet (inDegOf steps deps) x = some (tgtCount deps x : Int)) := by
  refine ⟨?_, ?_, ?_⟩
  · intro u hu
    rw [adjOutOf_get, if_neg hu]
  · intro u l hl t ht
    have hmem : t ∈ (mapGet (adjOutOf steps deps) u).getD [] := by
      rw [hl]
      exact ht
    obtain ⟨_, d, hd, hds, hdt⟩ := adj_mem_edge hmem
    exact ⟨d, hd, hds, hdt⟩
  · intro x hx
    rw [inDegOf_get, if_pos (Or.inl hx)]

theorem claim_C3_witness :
    mapGet (adjOutOf [⟨1⟩] [⟨9, 1⟩]) 9 = none ∧
    mapGet (inDegOf [⟨1⟩] [⟨9, 1⟩]) 1 = some (tgtCount [⟨9, 1⟩] 1 : Int) :=
  ⟨(claim_C3_amended [⟨1⟩] [⟨9, 1⟩]).1 9 (by decide),
   (claim_C3_amended [⟨1⟩] [⟨9, 1⟩]).2.2 1 (by decide)⟩

/-- C2 counterexample: nodes `{2, 1}` (in that input order) with edges
`1→2` and `99→1`.  Under the claim's own notion of in-degree (restricted
to edges with both endpoints in the node list) node `1` is a zero
in-degree source and both endpoints of the edge `1→2` are reachable from
it — yet the code's unrestricted in-degree never lets either node be
dequeued, both fall to the fallback path in input order, and the result
violates both `level(2) > level(1)` (both levels are 0) and
`x(1) < x(2)` (`x(1) = 520 > 260 = x(2)`). -/
theorem claim_C2_cex :
    ((⟨1, 2⟩ : DependencyEdge) ∈ ([⟨1, 2⟩, ⟨99, 1⟩] : List DependencyEdge)) ∧
    (1 ∈ stepIds [⟨2⟩, ⟨1⟩]) ∧ (2 ∈ stepIds [⟨2⟩, ⟨1⟩]) ∧
    (restrictedInDeg [⟨2⟩, ⟨1⟩] [⟨1, 2⟩, ⟨99, 1⟩] 1 = 0) ∧
    Reachable [⟨2⟩, ⟨1⟩] [⟨1, 2⟩, ⟨99, 1⟩] 1 1 ∧
    Reachable [⟨2⟩, ⟨1⟩] [⟨1, 2⟩, ⟨99, 1⟩] 1 2 ∧
    mapGet (buildLayout [⟨2⟩, ⟨1⟩] [⟨1, 2⟩, ⟨99, 1⟩]) 1 = some ⟨520, 0⟩ ∧
    mapGet (buildLayout [⟨2⟩, ⟨1⟩] [⟨1, 2⟩, ⟨99, 1⟩]) 2 = some ⟨260, 0⟩ ∧
    ¬ (levelOfFn [⟨2⟩, ⟨1⟩] [⟨1, 2⟩, ⟨99, 1⟩] 2 >
         levelOfFn [⟨2⟩, ⟨1⟩] [⟨1, 2⟩, ⟨99, 1⟩] 1 ∧
       ∃ pu pv, mapGet (buildLayout [⟨2⟩, ⟨1⟩] [⟨1, 2⟩, ⟨99, 1⟩]) 1 = some pu ∧
         mapGet (buildLayout [⟨2⟩, ⟨1⟩] [⟨1, 2⟩, ⟨99, 1⟩]) 2 = some pv ∧
         pu.x < pv.x) := by
  refine ⟨by decide, by decide, by decide, by decide,
    ⟨0, RPath.refl 1⟩,
    ⟨1, RPath.snoc (RPath.refl 1) (by decide) (by decide) (by decide)⟩,
    by decide, by decide, ?_⟩
  rintro ⟨h1, -⟩
  exact absurd h1 (by decide)

/-- C2 amended: the conclusion holds for every edge whose endpoints are
both input nodes and are both actually dequeued by the traversal (under
the code's in-degree, which also counts edges from non-existent sources):
then `level(v) > level(u)` and `x(u) < x(v)`. -/
theorem claim_C2_amended (steps : List StepNode) (deps : List DependencyEdge)
    (u v : Nat) (hedge : (⟨u, v⟩ : DependencyEdge) ∈ deps)
    (hu : u ∈ stepIds steps) (hv : v ∈ stepIds steps)
    (hqu : u ∈ (kahnState steps deps).queue)
    (hqv : v ∈ (kahnState steps deps).queue) :
    levelOfFn steps deps v > levelOfFn steps deps u ∧
    ∃ pu pv, mapGet (buildLayout steps deps) u = some pu ∧
      mapGet (buildLayout steps deps) v = some pv ∧ pu.x < pv.x := by
  have hadj : v ∈ (mapGet (adjOutOf steps deps) u).getD [] :=
    edge_mem_adj (d := ⟨u, v⟩) hedge hu
  have hlv := final_level_edge hqu hadj
  refine ⟨by omega, groupPos steps deps u, groupPos steps deps v, ?_, ?_, ?_⟩
  · rw [buildLayout_get, if_pos hqu]
  · rw [buildLayout_get, if_pos hqv]
  · show (levelOfFn steps deps u : Int) * (NODE_W + GAP_X) <
      (levelOfFn steps deps v : Int) * (NODE_W + GAP_X)
    have hc : (levelOfFn steps deps u : Int) < (levelOfFn steps deps v : Int) := by
      exact_mod_cast (by omega : levelOfFn steps deps u < levelOfFn steps deps v)
    exact mul_lt_mul_of_pos_right hc (by norm_num [NODE_W, GAP_X])

theorem claim_C2_witness :
    levelOfFn [⟨1⟩, ⟨2⟩, ⟨3⟩, ⟨4⟩] [⟨1, 2⟩, ⟨1, 3⟩, ⟨2, 4⟩, ⟨3, 4⟩] 2 >
      levelOfFn [⟨1⟩, ⟨2⟩, ⟨3⟩, ⟨4⟩] [⟨1, 2⟩, ⟨1, 3⟩, ⟨2, 4⟩, ⟨3, 4⟩] 1 ∧
    ∃ pu pv,
      mapGet (buildLayout [⟨1⟩, ⟨2⟩, ⟨3⟩, ⟨4⟩] [⟨1, 2⟩, ⟨1, 3⟩, ⟨2, 4⟩, ⟨3, 4⟩]) 1 =
        some pu ∧
      mapGet (buildLayout [⟨1⟩, ⟨2⟩, ⟨3⟩, ⟨4⟩] [⟨1, 2⟩, ⟨1, 3⟩, ⟨2, 4⟩, ⟨3, 4⟩]) 2 =
        some pv ∧ pu.x < pv.x :=
  claim_C2_amended [⟨1⟩, ⟨2⟩, ⟨3⟩, ⟨4⟩] [⟨1, 2⟩, ⟨1, 3⟩, ⟨2, 4⟩, ⟨3, 4⟩] 1 2
    (by decide) (by decide) (by decide) (by decide) (by decide)

/-- C5: for every input node dequeued by the traversal, its level is the
length of the longest path to it from a zero-in-degree source over the
restricted edge set: some restricted-in-degree-0 source reaches it by a
path of exactly `level(v)` edges, and no path from such a source is
longer. -/
theorem claim_C5 (steps : List StepNode) (deps : List DependencyEdge) (v : Nat)
    (hv : v ∈ stepIds steps) (hq : v ∈ (kahnState steps deps).queue) :
    (∃ s, s ∈ stepIds steps ∧ restrictedInDeg steps deps s = 0 ∧
      RPath steps deps s v (levelOfFn steps deps v)) ∧
    (∀ s n, s ∈ stepIds steps → restrictedInDeg steps deps s = 0 →
      RPath steps deps s v n → n ≤ levelOfFn steps deps v) := by
  refine ⟨exists_source_path (levelOfFn steps deps v) v hv hq rfl, ?_⟩
  intro s n _ _ hpath
  have := rpath_level_le hpath hq
  omega

theorem claim_C5_witness :
    (∃ s, s ∈ stepIds [⟨1⟩, ⟨2⟩, ⟨3⟩, ⟨4⟩] ∧
      restrictedInDeg [⟨1⟩, ⟨2⟩, ⟨3⟩, ⟨4⟩] [⟨1, 2⟩, ⟨1, 3⟩, ⟨2, 4⟩, ⟨3, 4⟩] s = 0 ∧
      RPath [⟨1⟩, ⟨2⟩, ⟨3⟩, ⟨4⟩] [⟨1, 2⟩, ⟨1, 3⟩, ⟨2, 4⟩, ⟨3, 4⟩] s 4
        (levelOfFn [⟨1⟩, ⟨2⟩, ⟨3⟩, ⟨4⟩] [⟨1, 2⟩, ⟨1, 3⟩, ⟨2, 4⟩, ⟨3, 4⟩] 4)) ∧
    (∀ s n, s ∈ stepIds [⟨1⟩, ⟨2⟩, ⟨3⟩, ⟨4⟩] →
      restrictedInDeg [⟨1⟩, ⟨2⟩, ⟨3⟩, ⟨4⟩] [⟨1, 2⟩, ⟨1, 3⟩, ⟨2, 4⟩, ⟨3, 4⟩] s = 0 →
      RPath [⟨1⟩, ⟨2⟩, ⟨3⟩, ⟨4⟩] [⟨1, 2⟩, ⟨1, 3⟩, ⟨2, 4⟩, ⟨3, 4⟩] s 4 n →
      n ≤ levelOfFn [⟨1⟩, ⟨2⟩, ⟨3⟩, ⟨4⟩] [⟨1, 2⟩, ⟨1, 3⟩, ⟨2, 4⟩, ⟨3, 4⟩] 4) :=
  claim_C5 [⟨1⟩, ⟨2⟩, ⟨3⟩, ⟨4⟩] [⟨1, 2⟩, ⟨1, 3⟩, ⟨2, 4⟩, ⟨3, 4⟩] 4 (by decide) (by decide)

/-- Two distinct dequeued nodes on the same level sit at least a full node
height plus gap apart vertically. -/
theorem grouped_y_gap {steps : List StepNode} {deps : List DependencyEdge} {a b : Nat}
    (ha : a ∈ (kahnState steps deps).queue) (hb : b ∈ (kahnState steps deps).queue)
    (hab : a ≠ b) (hlev : levelOfFn steps deps a = levelOfFn steps deps b) :
    (NODE_H + GAP_Y : Int) ≤ |(groupPos steps deps a).y - (groupPos steps deps b).y| := by
  have hG : levelGroupOf steps deps b = levelGroupOf steps deps a := by
    rw [levelGroupOf, levelGroupOf, hlev]
  have haG : a ∈ levelGroupOf steps deps a := List.mem_filter.mpr ⟨ha, by simp⟩
  have hbG : b ∈ levelGroupOf steps deps a := List.mem_filter.mpr ⟨hb, by simp [hlev]⟩
  have hne : idxIn (levelGroupOf steps deps a) a ≠ idxIn (levelGroupOf steps deps a) b :=
    fun h => hab (idxIn_inj haG hbG h)
  have hya : (groupPos steps deps a).y =
      (idxIn (levelGroupOf steps deps a) a : Int) * (NODE_H + GAP_Y) -
        (((levelGroupOf steps deps a).length : Int) * (NODE_H + GAP_Y) - GAP_Y) / 2 := rfl
  have hyb : (groupPos steps deps b).y =
      (idxIn (levelGroupOf steps deps b) b : Int) * (NODE_H + GAP_Y) -
        (((levelGroupOf steps deps b).length : Int) * (NODE_H + GAP_Y) - GAP_Y) / 2 := rfl
  have hdiff : (groupPos steps deps a).y - (groupPos steps deps b).y =
      (idxIn (levelGroupOf steps deps a) a : Int) * (NODE_H + GAP_Y) -
      (idxIn (levelGroupOf steps deps a) b : Int) * (NODE_H + GAP_Y) := by
    rw [hya, hyb, hG]
    ring
  rw [hdiff]
  exact mul_gap (by exact_mod_cast hne) (by norm_num [NODE_H, GAP_Y])

/-- Nodes on different levels sit at least a full node width plus gap
apart horizontally. -/
theorem grouped_x_gap {steps : List StepNode} {deps : List DependencyEdge} {a b : Nat}
    (hlev : levelOfFn steps deps a ≠ levelOfFn steps deps b) :
    (NODE_W + GAP_X : Int) ≤ |(groupPos steps deps a).x - (groupPos steps deps b).x| := by
  have hxa : (groupPos steps deps a).x =
      (levelOfFn steps deps a : Int) * (NODE_W + GAP_X) := rfl
  have hxb : (groupPos steps deps b).x =
      (levelOfFn steps deps b : Int) * (NODE_W + GAP_X) := rfl
  rw [hxa, hxb]
  exact mul_gap (by exact_mod_cast hlev) (by norm_num [NODE_W, GAP_X])

/-- C6: any two distinct dequeued nodes at the same level differ by at
least `H + Gy` in y; nodes at different levels differ by at least `W + Gx`
in x; and the `i`-th node of the level-`lvl` bucket receives exactly
`x = lvl (W+Gx)`, `y = i (H+Gy) − T/2` with `T = n (H+Gy) − Gy` for the
bucket size `n` (so each column is centered around `y = 0`). -/
theorem claim_C6 (steps : List StepNode) (deps : List DependencyEdge) :
    (∀ a b, a ∈ (kahnState steps deps).queue → b ∈ (kahnState steps deps).queue →
      a ≠ b → levelOfFn steps deps a = levelOfFn steps deps b →
      ∃ pa pb, mapGet (buildLayout steps deps) a = some pa ∧
        mapGet (buildLayout steps deps) b = some pb ∧
        NODE_H + GAP_Y ≤ |pa.y - pb.y|) ∧
    (∀ a b, a ∈ (kahnState steps deps).queue → b ∈ (kahnState steps deps).queue →
      levelOfFn steps deps a ≠ levelOfFn steps deps b →
      ∃ pa pb, mapGet (buildLayout steps deps) a = some pa ∧
        mapGet (buildLayout steps deps) b = some pb ∧
        NODE_W + GAP_X ≤ |pa.x - pb.x|) ∧
    (∀ lvl i a,
      ((kahnState steps deps).queue.filter
        (fun u => decide (levelOfFn steps deps u = lvl))).get? i = some a →
      mapGet (buildLayout steps deps) a =
        some ⟨(lvl : Int) * (NODE_W + GAP_X),
          (i : Int) * (NODE_H + GAP_Y) -
            ((((kahnState steps deps).queue.filter
              (fun u => decide (levelOfFn steps deps u = lvl))).length : Int) *
              (NODE_H + GAP_Y) - GAP_Y) / 2⟩) := by
  refine ⟨?_, ?_, ?_⟩
  · intro a b ha hb hab hlev
    exact ⟨groupPos steps deps a, groupPos steps deps b,
      by rw [buildLayout_get, if_pos ha],
      by rw [buildLayout_get, if_pos hb],
      grouped_y_gap ha hb hab hlev⟩
  · intro a b ha hb hlev
    exact ⟨groupPos steps deps a, groupPos steps deps b,
      by rw [buildLayout_get, if_pos ha],
      by rw [buildLayout_get, if_pos hb],
      grouped_x_gap hlev⟩
  · intro lvl i a hget
    have hmem := List.get?_mem hget
    have hfm := List.mem_filter.mp hmem
    have haQ : a ∈ (kahnState steps deps).queue := hfm.1
    have hlev : levelOfFn steps deps a = lvl := by simpa using hfm.2
    have hnd : ((kahnState steps deps).queue.filter
        (fun u => decide (levelOfFn steps deps u = lvl))).Nodup :=
      (final_nodup steps deps).filter _
    have hidx := idxIn_of_get? hnd hget
    rw [buildLayout_get, if_pos haQ]
    have hGa : levelGroupOf steps deps a = (kahnState steps deps).queue.filter
        (fun u => decide (levelOfFn steps deps u = lvl)) := by
      rw [levelGroupOf, hlev]
    have hgp : groupPos steps deps a =
        ⟨(levelOfFn steps deps a : Int) * (NODE_W + GAP_X),
         (idxIn (levelGroupOf steps deps a) a : Int) * (NODE_H + GAP_Y) -
           (((levelGroupOf steps deps a).length : Int) * (NODE_H + GAP_Y) - GAP_Y) / 2⟩ :=
      rfl
    rw [hgp, hGa, hidx, hlev]

theorem claim_C6_witness :
    ∃ pa pb,
      mapGet (buildLayout [⟨1⟩, ⟨2⟩, ⟨3⟩, ⟨4⟩] [⟨1, 2⟩, ⟨1, 3⟩, ⟨2, 4⟩, ⟨3, 4⟩]) 2 =
        some pa ∧
      mapGet (buildLayout [⟨1⟩, ⟨2⟩, ⟨3⟩, ⟨4⟩] [⟨1, 2⟩, ⟨1, 3⟩, ⟨2, 4⟩, ⟨3, 4⟩]) 3 =
        some pb ∧
      NODE_H + GAP_Y ≤ |pa.y - pb.y| :=
  (claim_C6 [⟨1⟩, ⟨2⟩, ⟨3⟩, ⟨4⟩] [⟨1, 2⟩, ⟨1, 3⟩, ⟨2, 4⟩, ⟨3, 4⟩]).1 2 3
    (by decide) (by decide) (by decide) (by decide)

/-- C8: every input node the main loop leaves without a level is placed by
the fallback pass: processed in original input order, the `i`-th such node
gets the column `maxLevel + 1 + i` (at `y = 0`), strictly to the right of
every column the main traversal produced. -/
theorem claim_C8 (steps : List StepNode) (deps : List DependencyEdge) (s : StepNode)
    (hs : s ∈ steps) (hmiss : s.id ∉ (kahnState steps deps).queue) :
    ∃ i, (fbList steps deps).get? i = some s.id ∧
      mapGet (buildLayout steps deps) s.id =
        some ⟨((maxLevelOf (kahnState steps deps).groups + 1 + i : Nat) : Int) *
          (NODE_W + GAP_X), 0⟩ ∧
      ∀ t pt, mapGet (placeGroups (kahnState steps deps).groups) t = some pt →
        pt.x < ((maxLevelOf (kahnState steps deps).groups + 1 + i : Nat) : Int) *
          (NODE_W + GAP_X) := by
  have hfb : s.id ∈ fbList steps deps :=
    (mem_fbList_iff steps deps s.id).mpr ⟨mem_stepIds hs, hmiss⟩
  refine ⟨idxIn (fbList steps deps) s.id, get?_idxIn hfb, ?_, ?_⟩
  · rw [buildLayout_get, if_neg hmiss, if_pos hfb]
  · intro t pt hpt
    rw [placeGroups_final_get] at hpt
    by_cases hqt : t ∈ (kahnState steps deps).queue
    · rw [if_pos hqt] at hpt
      have hptv : pt = groupPos steps deps t := (Option.some_inj.mp hpt).symm
      have hxv : pt.x = (levelOfFn steps deps t : Int) * (NODE_W + GAP_X) := by
        rw [hptv]
        rfl
      have hle := final_level_le_max hqt
      rw [hxv]
      have hlt : (levelOfFn steps deps t : Int) <
          ((maxLevelOf (kahnState steps deps).groups + 1 +
            idxIn (fbList steps deps) s.id : Nat) : Int) := by
        push_cast
        omega
      exact mul_lt_mul_of_pos_right hlt (by norm_num [NODE_W, GAP_X])
    · rw [if_neg hqt] at hpt
      exact absurd hpt (by simp)

theorem claim_C8_witness :
    ∃ i, (fbList [⟨1⟩, ⟨2⟩] [⟨1, 2⟩, ⟨2, 1⟩]).get? i = some 1 ∧
      mapGet (buildLayout [⟨1⟩, ⟨2⟩] [⟨1, 2⟩, ⟨2, 1⟩]) 1 =
        some ⟨((maxLevelOf (kahnState [⟨1⟩, ⟨2⟩] [⟨1, 2⟩, ⟨2, 1⟩]).groups + 1 + i : Nat) : Int) *
          (NODE_W + GAP_X), 0⟩ ∧
      ∀ t pt, mapGet (placeGroups (kahnState [⟨1⟩, ⟨2⟩] [⟨1, 2⟩, ⟨2, 1⟩]).groups) t =
          some pt →
        pt.x < ((maxLevelOf (kahnState [⟨1⟩, ⟨2⟩] [⟨1, 2⟩, ⟨2, 1⟩]).groups + 1 + i : Nat) : Int) *
          (NODE_W + GAP_X) :=
  claim_C8 [⟨1⟩, ⟨2⟩] [⟨1, 2⟩, ⟨2, 1⟩] ⟨1⟩ (by simp) (by decide)

/-- C9: for inputs with pairwise-distinct identifiers, any two distinct
entries of the returned map (fallback entries included, which all share
`y = 0` but occupy distinct columns) differ by at least `W + Gx`
horizontally or `H + Gy` vertically; in particular no two returned
positions coincide. -/
theorem claim_C9 (steps : List StepNode) (deps : List DependencyEdge)
    (hids : (stepIds steps).Nodup) (a b : Nat) (pa pb : Pos) (hab : a ≠ b)
    (ha : mapGet (buildLayout steps deps) a = some pa)
    (hb : mapGet (buildLayout steps deps) b = some pb) :
    ((NODE_W + GAP_X : Int) ≤ |pa.x - pb.x| ∨
     (NODE_H + GAP_Y : Int) ≤ |pa.y - pb.y|) ∧ pa ≠ pb := by
  rw [buildLayout_get] at ha hb
  have hwx : (0 : Int) < NODE_W + GAP_X := by norm_num [NODE_W, GAP_X]
  have hgap : (NODE_W + GAP_X : Int) ≤ |pa.x - pb.x| ∨
      (NODE_H + GAP_Y : Int) ≤ |pa.y - pb.y| := by
    by_cases hqa : a ∈ (kahnState steps deps).queue <;>
      by_cases hqb : b ∈ (kahnState steps deps).queue
    · -- both placed by the group phase
      rw [if_pos hqa] at ha
      rw [if_pos hqb] at hb
      have hpa := Option.some_inj.mp ha
      have hpb := Option.some_inj.mp hb
      by_cases hlev : levelOfFn steps deps a = levelOfFn steps deps b
      · right
        have := grouped_y_gap hqa hqb hab hlev
        rw [hpa, hpb] at this
        exact this
      · left
        have := grouped_x_gap hlev
        rw [hpa, hpb] at this
        exact this
    · -- a grouped, b fallback
      left
      rw [if_pos hqa] at ha
      rw [if_neg hqb] at hb
      by_cases hfbb : b ∈ fbList steps deps
      · rw [if_pos hfbb] at hb
        have hpa := Option.some_inj.mp ha
        have hpb := Option.some_inj.mp hb
        have hxa : pa.x = (levelOfFn steps deps a : Int) * (NODE_W + GAP_X) := by
          rw [← hpa]
          rfl
        have hxb : pb.x =
            ((maxLevelOf (kahnState steps deps).groups + 1 +
              idxIn (fbList steps deps) b : Nat) : Int) * (NODE_W + GAP_X) := by
          rw [← hpb]
        have hle := final_level_le_max hqa
        have h1 : pa.x ≤ ((maxLevelOf (kahnState steps deps).groups : Nat) : Int) *
            (NODE_W + GAP_X) := by
          rw [hxa]
          exact mul_le_mul_of_nonneg_right (by exact_mod_cast hle) (le_of_lt hwx)
        have h2 : (((maxLevelOf (kahnState steps deps).groups : Nat) : Int) + 1) *
            (NODE_W + GAP_X) ≤ pb.x := by
          rw [hxb]
          apply mul_le_mul_of_nonneg_right _ (le_of_lt hwx)
          push_cast
          omega
        have h3 : (NODE_W + GAP_X : Int) ≤ pb.x - pa.x := by
          have e : (((maxLevelOf (kahnState steps deps).groups : Nat) : Int) + 1) *
              (NODE_W + GAP_X) =
              ((maxLevelOf (kahnState steps deps).groups : Nat) : Int) *
                (NODE_W + GAP_X) + (NODE_W + GAP_X) := by ring
          linarith
        calc (NODE_W + GAP_X : Int) ≤ pb.x - pa.x := h3
          _ ≤ |pb.x - pa.x| := le_abs_self _
          _ = |pa.x - pb.x| := abs_sub_comm _ _
      · rw [if_neg hfbb] at hb
        exact absurd hb (by simp)
    · -- a fallback, b grouped (mirror)
      left
      rw [if_neg hqa] at ha
      rw [if_pos hqb] at hb
      by_cases hfba : a ∈ fbList steps deps
      · rw [if_pos hfba] at ha
        have hpa := Option.some_inj.mp ha
        have hpb := Option.some_inj.mp hb
        have hxb : pb.x = (levelOfFn steps deps b : Int) * (NODE_W + GAP_X) := by
          rw [← hpb]
          rfl
        have hxa : pa.x =
            ((maxLevelOf (kahnState steps deps).groups + 1 +
              idxIn (fbList steps deps) a : Nat) : Int) * (NODE_W + GAP_X) := by
          rw [← hpa]
        have hle := final_level_le_max hqb
        have h1 : pb.x ≤ ((maxLevelOf (kahnState steps deps).groups : Nat) : Int) *
            (NODE_W + GAP_X) := by
          rw [hxb]
          exact mul_le_mul_of_nonneg_right (by exact_mod_cast hle) (le_of_lt hwx)
        have h2 : (((maxLevelOf (kahnState steps deps).groups : Nat) : Int) + 1) *
            (NODE_W + GAP_X) ≤ pa.x := by
          rw [hxa]
          apply mul_le_mul_of_nonneg_right _ (le_of_lt hwx)
          push_cast
          omega
        have h3 : (NODE_W + GAP_X : Int) ≤ pa.x - pb.x := by
          have e : (((maxLevelOf (kahnState steps deps).groups : Nat) : Int) + 1) *
              (NODE_W + GAP_X) =
              ((maxLevelOf (kahnState steps deps).groups : Nat) : Int) *
                (NODE_W + GAP_X) + (NODE_W + GAP_X) := by ring
          linarith
        calc (NODE_W + GAP_X : Int) ≤ pa.x - pb.x := h3
          _ ≤ |pa.x - pb.x| := le_abs_self _
      · rw [if_neg hfba] at ha
        exact absurd ha (by simp)
    · -- both fallback
      left
      rw [if_neg hqa] at ha
      rw [if_neg hqb] at hb
      by_cases hfba : a ∈ fbList steps deps
      · by_cases hfbb : b ∈ fbList steps deps
        · rw [if_pos hfba] at ha
          rw [if_pos hfbb] at hb
          have hpa := Option.some_inj.mp ha
          have hpb := Option.some_inj.mp hb
          have hnd : (fbList steps deps).Nodup := fbOrder_nodup steps _
          have hne : idxIn (fbList steps deps) a ≠ idxIn (fbList steps deps) b :=
            fun h => hab (idxIn_inj hfba hfbb h)
          have hxa : pa.x =
              ((maxLevelOf (kahnState steps deps).groups + 1 +
                idxIn (fbList steps deps) a : Nat) : Int) * (NODE_W + GAP_X) := by
            rw [← hpa]
          have hxb : pb.x =
              ((maxLevelOf (kahnState steps deps).groups + 1 +
                idxIn (fbList steps deps) b : Nat) : Int) * (NODE_W + GAP_X) := by
            rw [← hpb]
          rw [hxa, hxb]
          apply mul_gap _ (le_of_lt hwx)
          have : maxLevelOf (kahnState steps deps).groups + 1 +
              idxIn (fbList steps deps) a ≠
              maxLevelOf (kahnState steps deps).groups + 1 +
              idxIn (fbList steps deps) b := by omega
          exact_mod_cast this
        · rw [if_neg hfbb] at hb
          exact absurd hb (by simp)
      · rw [if_neg hfba] at ha
        exact absurd ha (by simp)
  refine ⟨hgap, ?_⟩
  intro heq
  rcases hgap with h | h <;> rw [heq, sub_self, abs_zero] at h <;>
    norm_num [NODE_W, GAP_X, NODE_H, GAP_Y] at h

theorem claim_C9_witness :
    ((NODE_W + GAP_X : Int) ≤ |(⟨0, -50⟩ : Pos).x - (⟨260, -130⟩ : Pos).x| ∨
     (NODE_H + GAP_Y : Int) ≤ |(⟨0, -50⟩ : Pos).y - (⟨260, -130⟩ : Pos).y|) ∧
    (⟨0, -50⟩ : Pos) ≠ (⟨260, -130⟩ : Pos) :=
  claim_C9 [⟨1⟩, ⟨2⟩, ⟨3⟩, ⟨4⟩] [⟨1, 2⟩, ⟨1, 3⟩, ⟨2, 4⟩, ⟨3, 4⟩] (by decide) 1 2
    ⟨0, -50⟩ ⟨260, -130⟩ (by decide) (by decide) (by decide)

end POE
